import Mathlib

/-!
Verification of the seafuse repository read path.

Strings at the FFI / parsing boundary are modelled as lists of bytes
(`List Nat`, each element a byte value), machine integers as `Nat` with
explicit bounds checks where the source performs them, and fallible
operations as `Option` / `Except`.
-/

namespace Seafuse

/-! ## Data model: Sha1 (src/repo.rs lines 514-563)

The source stores a sha1 as `words: [u32; 5]`.  We model the array as a
`List Nat`; parsed values always have five words, each below 2^32. -/

structure Sha1 where
  words : List Nat
deriving DecidableEq

/-- `const EMPTY_SHA1: Sha1 = Sha1 { words: [0; 5] }` — the all-zero
20-byte sentinel. -/
def EMPTY_SHA1 : Sha1 := ⟨[0, 0, 0, 0, 0]⟩

/-- `char::to_digit(16)` applied to a byte, as used by
`u32::from_str_radix(_, 16)`: ASCII `0-9`, `a-f`, `A-F`. -/
def hexDigit? (b : Nat) : Option Nat :=
  if 48 ≤ b ∧ b ≤ 57 then some (b - 48)
  else if 97 ≤ b ∧ b ≤ 102 then some (b - 87)
  else if 65 ≤ b ∧ b ≤ 70 then some (b - 55)
  else none

/-- ASCII lowercasing of one byte (`str::to_lowercase` on hex characters). -/
def toLowerByte (b : Nat) : Nat := if 65 ≤ b ∧ b ≤ 90 then b + 32 else b

/-- Digit-accumulation loop of `u32::from_str_radix(_, 16)`.  The source
uses `checked_mul` / `checked_add` against `u32::MAX`; the combined
check `acc * 16 + d < 2^32` is equivalent because `d < 16`. -/
def parseHexDigits (acc : Nat) : List Nat → Option Nat
  | [] => some acc
  | b :: rest =>
    match hexDigit? b with
    | none => none
    | some d =>
      if acc * 16 + d < 4294967296 then parseHexDigits (acc * 16 + d) rest
      else none

/-- `u32::from_str_radix(s, 16)` on a byte string: empty input is an
error; a single leading `+` (byte 43) is accepted and stripped (a `-`
falls through to the digit check and fails, as for any unsigned type);
the remaining digits must be non-empty hex digits with no overflow. -/
def from_str_radix_u32_16 (s : List Nat) : Option Nat :=
  match s with
  | [] => none
  | b :: rest =>
    let digits := if b = 43 then rest else s
    match digits with
    | [] => none
    | _ => parseHexDigits 0 digits

/-- `str::is_char_boundary`: true at 0 and at the length; inside the
string the byte must not be a UTF-8 continuation byte (0x80..0xBF). -/
def is_char_boundary (s : List Nat) (i : Nat) : Bool :=
  if i = 0 then true
  else if i = s.length then true
  else if i < s.length then !(decide (128 ≤ s.getD i 0) && decide (s.getD i 0 < 192))
  else false

/-- `str::get(a..b)`: `Some` slice when the range is ordered, within
bounds, and both ends are char boundaries. -/
def strGetRange (s : List Nat) (a b : Nat) : Option (List Nat) :=
  if a ≤ b ∧ b ≤ s.length ∧ is_char_boundary s a = true ∧ is_char_boundary s b = true
  then some ((s.drop a).take (b - a)) else none

/-- `Sha1::parse` (src/repo.rs 522-533): for `i in 0..5` take
`hex.get(i*8..(i+1)*8)`, parse it as a base-16 u32, and store it at
`words[4-i]`.  The loop is unrolled; the resulting words array is
`[c4, c3, c2, c1, c0]` where `c_i` is chunk `i` of the input. -/
def Sha1.parse (hex : List Nat) : Option Sha1 := do
  let s0 ← strGetRange hex 0 8
  let c0 ← from_str_radix_u32_16 s0
  let s1 ← strGetRange hex 8 16
  let c1 ← from_str_radix_u32_16 s1
  let s2 ← strGetRange hex 16 24
  let c2 ← from_str_radix_u32_16 s2
  let s3 ← strGetRange hex 24 32
  let c3 ← from_str_radix_u32_16 s3
  let s4 ← strGetRange hex 32 40
  let c4 ← from_str_radix_u32_16 s4
  pure ⟨[c4, c3, c2, c1, c0]⟩

/-- Lowercase hex character for a digit (`{:08x}` formatting). -/
def hexChr (d : Nat) : Nat := if d < 10 then 48 + d else 87 + d

/-- `write!(f, "\x7b:08x\x7d", n)` for a u32 value: exactly eight
lowercase hex characters, most significant digit first. -/
def toHex8 (n : Nat) : List Nat :=
  [hexChr (n / 268435456 % 16), hexChr (n / 16777216 % 16),
   hexChr (n / 1048576 % 16), hexChr (n / 65536 % 16),
   hexChr (n / 4096 % 16), hexChr (n / 256 % 16),
   hexChr (n / 16 % 16), hexChr (n % 16)]

/-- `impl Display for Sha1` (src/repo.rs 535-542): for `i in 0..5`
print `words[4-i]` as eight hex characters. -/
def sha1Render (s : Sha1) : List Nat :=
  toHex8 (s.words.getD 4 0) ++ toHex8 (s.words.getD 3 0) ++
  toHex8 (s.words.getD 2 0) ++ toHex8 (s.words.getD 1 0) ++
  toHex8 (s.words.getD 0 0)

/-! ## Byte strings and paths

A Rust `String`/`str` is modelled as its UTF-8 bytes, a `PathBuf` as its
list of components (each a byte string); `PathBuf::push`/`join` append a
component and `PathBuf::pop` removes the last one. -/

abbrev ByteStr := List Nat

abbrev RPath := List ByteStr

/-- `Path::join` with a single component. -/
def pathJoin (p : RPath) (c : ByteStr) : RPath := p ++ [c]

/-! ## Errors (src/repo.rs 565-573)

Constructor names are lower-cased versions of the `SeafError` variants;
payloads (paths, causes) are dropped as no claim inspects them.
`panicked` marks a Rust `unwrap`/`unreachable!` panic, which aborts
instead of returning. -/

inductive SeafErr where
  | ioErr
  | parseJson
  | walkDir
  | notImpl
  | noHeadCommit
  | wrongFsType
  | panicked
deriving DecidableEq

/-! ## JSON object model (src/repo.rs 418-503) -/

structure CommitJson where
  commit_id : Sha1
  root_id : Sha1
  repo_id : ByteStr
  creator_name : ByteStr
  creator : ByteStr
  description : ByteStr
  ctime : Nat
  parent_id : Option Sha1
  second_parent_id : Option Sha1
  repo_name : ByteStr
  repo_desc : ByteStr
  repo_category : Option ByteStr
  no_local_history : Nat
  version : Nat
deriving DecidableEq

structure FileJson where
  block_ids : List Sha1
  size : Nat
  ty : Nat
  version : Nat
deriving DecidableEq

structure DirentJson where
  id : Sha1
  mode : Nat
  mtime : Nat
  name : ByteStr
deriving DecidableEq

structure DirJson where
  dirents : List DirentJson
  ty : Nat
  version : Nat
deriving DecidableEq

/-- `const EMPTY_DIR_JSON` (src/repo.rs 453-457). -/
def EMPTY_DIR_JSON : DirJson := ⟨[], 0, 0⟩

inductive FsJson where
  | file (f : FileJson)
  | dir (d : DirJson)
deriving DecidableEq

/-! ## Library, object paths, head-commit selection (src/repo.rs 30-121) -/

structure LibraryLocation where
  repo_path : RPath
  uuid : ByteStr
deriving DecidableEq

structure Library where
  location : LibraryLocation
  head_commit : CommitJson
deriving DecidableEq

/-- `obj_type_path` (src/repo.rs 119-121): `repo_path/ty/uuid`. -/
def obj_type_path (ll : LibraryLocation) (ty : ByteStr) : RPath :=
  pathJoin (pathJoin ll.repo_path ty) ll.uuid

/-- `full_obj_path` (src/repo.rs 114-117): render the hash and join the
first two characters and the remaining 38 as separate components. -/
def full_obj_path (ll : LibraryLocation) (ty : ByteStr) (id : Sha1) : RPath :=
  let id_str := sha1Render id
  pathJoin (pathJoin (obj_type_path ll ty) (id_str.take 2)) (id_str.drop 2)

/-- The bytes of the object-type name `"fs"`. -/
def fsTyName : ByteStr := [102, 115]

/-- `Library::load_fs` (src/repo.rs 65-71): the empty sentinel yields an
empty Dir directly; any other id is read through `parse_fs_json`
(src/repo.rs 505-512: open the object file, zlib-decode, JSON-decode),
whose filesystem-dependent behaviour is abstracted as an oracle from
the object path to the decoded result. -/
def Library.load_fs (parse_fs_json : RPath → Except SeafErr FsJson) (lib : Library)
    (id : Sha1) : Except SeafErr FsJson :=
  if id = EMPTY_SHA1 then .ok (.dir EMPTY_DIR_JSON)
  else parse_fs_json (full_obj_path lib.location fsTyName id)

/-- Loop of `find_head_commit` (src/repo.rs 91-108) over the items of
the commit iterator: keep the commit with strictly larger `ctime`,
propagate iterator errors via `?`. -/
def findHeadLoop (head_commit : Option CommitJson) :
    List (Except SeafErr CommitJson) → Except SeafErr CommitJson
  | [] =>
    match head_commit with
    | some hc => .ok hc
    | none => .error .noHeadCommit
  | item :: rest =>
    match item with
    | .error e => .error e
    | .ok c =>
      match head_commit with
      | some hc => findHeadLoop (if c.ctime > hc.ctime then some c else some hc) rest
      | none => findHeadLoop (some c) rest

def find_head_commit (cs : List (Except SeafErr CommitJson)) : Except SeafErr CommitJson :=
  findHeadLoop none cs

/-- `Library::open` (src/repo.rs 31-42), with the enumeration of commit
objects under `repo_path/commits/uuid` supplied as the list of items the
commit iterator produces. -/
def Library.open (repo_path : RPath) (uuid : ByteStr)
    (cs : List (Except SeafErr CommitJson)) : Except SeafErr Library :=
  match find_head_commit cs with
  | .error e => .error e
  | .ok hc => .ok ⟨⟨repo_path, uuid⟩, hc⟩

/-! ## Block reader (src/repo.rs 269-416)

The block object store is modelled as a total map from hashes to the
bytes of the block file on disk: `fs::metadata(path).len()` is the list
length and `File::open` + `seek` + `read_exact` reads slices of it. -/

structure FileBlockReader where
  block_ids : List Sha1
  block_sizes : List Nat
  block_starts : List Nat
  size : Nat
deriving DecidableEq

/-- The running-prefix-sum loop of `FileBlockReader::new`:
`block_starts.push(pos); pos += l`. -/
def blockStartsFrom (pos : Nat) : List Nat → List Nat
  | [] => []
  | s :: rest => pos :: blockStartsFrom (pos + s) rest

/-- `FileBlockReader::new` (src/repo.rs 337-359): stat every block
object once, record the on-disk lengths, their running starts, and the
total in `size`.  The declared `file.size` field is not consulted. -/
def FileBlockReader.new (store : Sha1 → List Nat) (file : FileJson) : FileBlockReader :=
  { block_ids := file.block_ids
    block_sizes := file.block_ids.map (fun id => (store id).length)
    block_starts := blockStartsFrom 0 (file.block_ids.map (fun id => (store id).length))
    size := (file.block_ids.map (fun id => (store id).length)).sum }

/-- `bisection::bisect_right` on a sorted slice returns the insertion
point to the right of all equal entries, i.e. the number of elements
`≤ x`.  `block_starts` is nondecreasing, so this model is exact. -/
def bisect_right (xs : List Nat) (x : Nat) : Nat :=
  xs.countP (fun a => decide (a ≤ x))

/-- `FileBlockReader::find_start_block` (src/repo.rs 396-415).  The
source `assert!(offset >= block_start)` never fires on a reader built by
`new` (starts are prefix sums, so sorted); `Nat` subtraction makes the
model total regardless. -/
def find_start_block (fbr : FileBlockReader) (offset : Nat) : Option (Nat × Nat) :=
  let next_block_idx := bisect_right fbr.block_starts offset
  if next_block_idx = 0 then none
  else
    let block_idx := next_block_idx - 1
    let block_start := fbr.block_starts.getD block_idx 0
    let block_offset := offset - block_start
    if block_offset < fbr.block_sizes.getD block_idx 0 then some (block_idx, block_offset)
    else none

/-- The `while` loop of `read_at_offset` (src/repo.rs 368-389) over the
remaining `(block_id, block_size)` pairs: while the buffer is not full
and blocks remain, read `min(to_read - have_read, block_size -
block_offset)` bytes of the current block file starting at
`block_offset`, then move to the next block with offset 0.  `to_read`
here is the remaining buffer space; the returned list is the bytes
written into the buffer. -/
def readLoop (store : Sha1 → List Nat) : List (Sha1 × Nat) → Nat → Nat → List Nat
  | [], _, _ => []
  | _ :: _, _, 0 => []
  | (id, sz) :: rest, block_offset, tr + 1 =>
    let t := min (tr + 1) (sz - block_offset)
    ((store id).drop block_offset).take t ++ readLoop store rest 0 (tr + 1 - t)

/-- `FileBlockReader::read_at_offset` (src/repo.rs 361-394) for a buffer
of length `to_read`: locate the start block, then run the block loop
from that index; `None` from `find_start_block` yields `Ok(0)`, i.e. no
bytes. -/
def FileBlockReader.read_at_offset (store : Sha1 → List Nat) (fbr : FileBlockReader)
    (offset : Nat) (to_read : Nat) : List Nat :=
  match find_start_block fbr offset with
  | none => []
  | some (block_idx, block_offset) =>
    readLoop store ((fbr.block_ids.zip fbr.block_sizes).drop block_idx) block_offset to_read

/-! ## FileReader (src/repo.rs 269-325) -/

structure FileReader where
  block_reader : FileBlockReader
  byte_pos : Nat
deriving DecidableEq

def FileReader.new (block_reader : FileBlockReader) : FileReader := ⟨block_reader, 0⟩

/-- `Seek for FileReader` with `SeekFrom::Start(o)` (src/repo.rs
300-303): set `byte_pos := o` unconditionally; never fails, touches no
file, returns the new position. -/
def FileReader.seek_start (fr : FileReader) (o : Nat) : FileReader × Nat :=
  ({ fr with byte_pos := o }, o)

/-- `Read for FileReader` (src/repo.rs 284-295): read at `byte_pos`,
advance it by the returned count. -/
def FileReader.read (store : Sha1 → List Nat) (fr : FileReader) (buf_len : Nat) :
    FileReader × List Nat :=
  let r := fr.block_reader.read_at_offset store fr.byte_pos buf_len
  ({ fr with byte_pos := fr.byte_pos + r.length }, r)

/-! ## Fuse adapter state (src/fuse.rs) -/

/-- `fuser::FUSE_ROOT_ID`. -/
def FUSE_ROOT_ID : Nat := 1

/-- libc errno values. -/
def ENOENT : Nat := 2
def EIO : Nat := 5
def EBADF : Nat := 9
def EINVAL : Nat := 22
def ENOTDIR : Nat := 20

/-- The inode side of `SeafFuse` (src/fuse.rs 21-36): the
`BiMap<u64, Sha1>` is modelled as its list of pairs, together with the
allocation counter. -/
structure InoState where
  ino_table : List (Nat × Sha1)
  ino_counter : Nat
deriving DecidableEq

/-- `BiMap::get_by_left`. -/
def getByLeft (t : List (Nat × Sha1)) (ino : Nat) : Option Sha1 :=
  (t.find? (fun p => decide (p.1 = ino))).map Prod.snd

/-- `BiMap::get_by_right`. -/
def getByRight (t : List (Nat × Sha1)) (id : Sha1) : Option Nat :=
  (t.find? (fun p => decide (p.2 = id))).map Prod.fst

/-- `BiMap::insert`: removes any pair sharing either key, then adds the
new pair. -/
def bimapInsert (t : List (Nat × Sha1)) (ino : Nat) (id : Sha1) : List (Nat × Sha1) :=
  (t.filter (fun p => decide (p.1 ≠ ino) && decide (p.2 ≠ id))) ++ [(ino, id)]

/-- The inode state built by `SeafFuse::new` (src/fuse.rs 62-72):
table seeded with `(FUSE_ROOT_ID, head_commit.root_id)`, counter at
`FUSE_ROOT_ID + 1`. -/
def inoInit (root_id : Sha1) : InoState := ⟨[(FUSE_ROOT_ID, root_id)], FUSE_ROOT_ID + 1⟩

/-- `SeafFuse::add_ino` (src/fuse.rs 131-141): reuse the existing inode
for an already-mapped hash, else allocate the counter value and bump it. -/
def add_ino (s : InoState) (id : Sha1) : Nat × InoState :=
  match getByRight s.ino_table id with
  | some ino => (ino, s)
  | none => (s.ino_counter, ⟨bimapInsert s.ino_table s.ino_counter id, s.ino_counter + 1⟩)

/-- `SeafFuse::lookup_id_by_ino` (src/fuse.rs 121-129). -/
def lookup_id_by_ino (s : InoState) (ino : Nat) : Except Nat Sha1 :=
  match getByLeft s.ino_table ino with
  | none => .error EIO
  | some id => .ok id

/-- Inode states reachable during a mount: the state after `new`,
closed under `add_ino` (the only operation that writes the table, used
by `do_lookup` via `lookup_attr_by_id` and by `do_readdir`). -/
inductive Reachable (root_id : Sha1) : InoState → Prop where
  | init : Reachable root_id (inoInit root_id)
  | step (s : InoState) (id : Sha1) :
      Reachable root_id s → Reachable root_id (add_ino s id).2

/-- `ReachFrom s t`: `t` is a later state of the same mount than `s`. -/
inductive ReachFrom (s : InoState) : InoState → Prop where
  | refl : ReachFrom s s
  | step (t : InoState) (id : Sha1) : ReachFrom s t → ReachFrom s (add_ino t id).2

/-! ## Attributes and do_read (src/fuse.rs 79-119, 252-266) -/

inductive FileKind where
  | directory
  | regularFile
deriving DecidableEq

/-- `fuser::FileAttr`, with timestamps (all `UNIX_EPOCH`) as 0. -/
structure FileAttr where
  ino : Nat
  size : Nat
  blocks : Nat
  atime : Nat
  mtime : Nat
  ctime : Nat
  crtime : Nat
  kind : FileKind
  perm : Nat
  nlink : Nat
  uid : Nat
  gid : Nat
  rdev : Nat
  blksize : Nat
  flags : Nat
deriving DecidableEq

/-- Attribute construction in `SeafFuse::lookup_attr_by_ino`
(src/fuse.rs 79-119) from the loaded fs-node: directories report size
0 and permission 0o755 = 493; files report the declared `f.size` field
and permission 0o644 = 420. -/
def attrOf (ino : Nat) : FsJson → FileAttr
  | .dir _ => ⟨ino, 0, 0, 0, 0, 0, 0, .directory, 493, 1, 0, 0, 0, 0, 0⟩
  | .file f => ⟨ino, f.size, 0, 0, 0, 0, 0, .regularFile, 420, 1, 0, 0, 0, 0, 0⟩

/-- An entry of the open-file table (src/fuse.rs 46-49). -/
structure OpenFile where
  reader : FileReader
deriving DecidableEq

/-- `offset as u64` applied to an `i64`: two's-complement wraparound. -/
def i64_as_u64 (o : Int) : Nat := (o % 18446744073709551616).toNat

/-- `SeafFuse::do_read` (src/fuse.rs 252-266): fetch the open file
(EBADF when the handle is absent), seek to `SeekFrom::Start(offset as
u64)` — which never fails, so the `EINVAL` mapping on seek errors is
dead — then read up to `size` bytes; the buffer is truncated to the
returned count (`read` returns exactly the bytes read in this model).
Read errors would map to EIO; the pure block store cannot fail. -/
def do_read (store : Sha1 → List Nat) (open_file_table : List (Nat × OpenFile))
    (fh : Nat) (offset : Int) (size : Nat) : Except Nat (List Nat) :=
  match (open_file_table.find? (fun p => decide (p.1 = fh))).map Prod.snd with
  | none => .error EBADF
  | some of =>
    let s1 := of.reader.seek_start (i64_as_u64 offset)
    let r := s1.1.read store size
    .ok r.2

/-! ## The filesystem walker (src/repo.rs 123-222)

`Library::load_fs` is passed in as a function `lib : Sha1 → Except
SeafErr FsJson` (the walker only ever observes loads through it).  The
directory stack is stored top-first: the head of the Lean list is the
last element of the source `Vec`.  Each frame's `dirents` keeps the
stored order and is consumed from its end by `Vec::pop`. -/

/-- `FsItState` (src/repo.rs 130-145). -/
inductive FsItState where
  | root (root_id : Sha1)
  | notRoot (stack : List DirJson) (path : RPath)
deriving DecidableEq

/-- The `while` loop of `FsIterator::next_result` (src/repo.rs
176-191): pop a dirent from the end of the top frame (the pop happens
before the load, so a failing load leaves the dirent removed); loaded
dirs are pushed with the path extended; an exhausted frame is popped
together with the last path component.  Returns the state as mutated by
the call, paired with the produced `Result<Option<item>>`. -/
def nextLoop (lib : Sha1 → Except SeafErr FsJson) :
    List DirJson → RPath → FsItState × Except SeafErr (Option (RPath × DirentJson × FsJson))
  | [], path => (.notRoot [] path, .ok none)
  | d :: rest, path =>
    match d.dirents.getLast? with
    | none => nextLoop lib rest path.dropLast
    | some de =>
      let d2 : DirJson := ⟨d.dirents.dropLast, d.ty, d.version⟩
      match lib de.id with
      | .error e => (.notRoot (d2 :: rest) path, .error e)
      | .ok (.dir dj) =>
        (.notRoot (dj :: d2 :: rest) (path ++ [de.name]), .ok (some (path, de, .dir dj)))
      | .ok (.file f) => (.notRoot (d2 :: rest) path, .ok (some (path, de, .file f)))

/-- `FsIterator::next_result` (src/repo.rs 157-194): in the `Root`
state load the root (the state is not advanced when that load fails);
`unwrap_dir` panics when the root is a File (modelled by `panicked`);
then fall through into the loop. -/
def nextResult (lib : Sha1 → Except SeafErr FsJson) :
    FsItState → FsItState × Except SeafErr (Option (RPath × DirentJson × FsJson))
  | .root root_id =>
    match lib root_id with
    | .error e => (.root root_id, .error e)
    | .ok (.file _) => (.root root_id, .error .panicked)
    | .ok (.dir d) => nextLoop lib [d] []
  | .notRoot stack path => nextLoop lib stack path

/-- `FsIterator::clear` (src/repo.rs 207-213): empty stack, empty path. -/
def clearIt : FsItState := .notRoot [] []

/-- `FsIterator::prune` (src/repo.rs 197-205): in `Root` call `clear`;
otherwise pop the stack (`Vec::pop` on an empty vector is a no-op) and
the last path component. -/
def pruneIt : FsItState → FsItState
  | .root _ => clearIt
  | .notRoot stack path => .notRoot stack.tail path.dropLast

/-- Drain the `Iterator` implementation (src/repo.rs 216-222):
repeatedly call `next_result`, collecting items until it yields
`Ok(None)`.  `fuel` bounds the number of calls; the theorems below
always supply enough fuel for the walk to finish. -/
def runIter (lib : Sha1 → Except SeafErr FsJson) (fuel : Nat) (st : FsItState) :
    List (Except SeafErr (RPath × DirentJson × FsJson)) :=
  match fuel with
  | 0 => []
  | fuel + 1 =>
    match nextResult lib st with
    | (_, .ok none) => []
    | (st2, .ok (some it)) => .ok it :: runIter lib fuel st2
    | (st2, .error e) => .error e :: runIter lib fuel st2

/-! ## Specification-side tree view of a well-formed repository -/

/-- A finite fs tree: what the claims call a well-formed repository
reachable from a root.  Dirents are `(name, subtree)` pairs in stored
order. -/
inductive Tree where
  | file : Tree
  | dir (es : List (ByteStr × Tree)) : Tree

/-- Number of nodes below a dirent list (each dirent counts once). -/
def listSize : List (ByteStr × Tree) → Nat
  | [] => 0
  | (_, .file) :: rest => 1 + listSize rest
  | (_, .dir es) :: rest => 1 + listSize es + listSize rest

/-- `LoadsTree lib id t`: the object store resolves `id` to the finite
tree `t` — every reachable dirent id loads successfully and the
structure is well-founded. -/
inductive LoadsTree (lib : Sha1 → Except SeafErr FsJson) : Sha1 → Tree → Prop where
  | file (id : Sha1) (f : FileJson) :
      lib id = .ok (.file f) → LoadsTree lib id .file
  | dir (id : Sha1) (d : DirJson) (es : List (ByteStr × Tree)) :
      lib id = .ok (.dir d) →
      d.dirents.length = es.length →
      (∀ i (h1 : i < d.dirents.length) (h2 : i < es.length),
        (d.dirents.get ⟨i, h1⟩).name = (es.get ⟨i, h2⟩).1) →
      (∀ i (h1 : i < d.dirents.length) (h2 : i < es.length),
        LoadsTree lib (d.dirents.get ⟨i, h1⟩).id (es.get ⟨i, h2⟩).2) →
      LoadsTree lib id (.dir es)

/-- A frame's remaining dirents match a list of subtrees pointwise. -/
def DirentsOk (lib : Sha1 → Except SeafErr FsJson) (ds : List DirentJson)
    (es : List (ByteStr × Tree)) : Prop :=
  List.Forall₂ (fun de p => de.name = p.1 ∧ LoadsTree lib de.id p.2) ds es

/-- The `(parent_path, name)` pairs the walker produces while draining
a frame whose remaining dirents (in stored order) match `es`: dirents
are popped from the end, and each directory dirent is descended into
right after being yielded. -/
def popYields (path : RPath) : List (ByteStr × Tree) → List (RPath × ByteStr)
  | [] => []
  | (n, .file) :: rest => popYields path rest ++ [(path, n)]
  | (n, .dir es) :: rest => popYields path rest ++ (path, n) :: popYields (path ++ [n]) es

/-- The `(parent_path, name)` pairs the walker still owes for a whole
stack: the top frame first, parents at successively shorter paths. -/
def stackYields : List (List (ByteStr × Tree)) → RPath → List (RPath × ByteStr)
  | [], _ => []
  | es :: rest, path => popYields path es ++ stackYields rest path.dropLast

/-- The filesystem's true contents below a directory, in stored order:
one `(parent_path, name)` pair per reachable non-root node. -/
def entriesFwd (path : RPath) : List (ByteStr × Tree) → List (RPath × ByteStr)
  | [] => []
  | (n, .file) :: rest => (path, n) :: entriesFwd path rest
  | (n, .dir es) :: rest => (path, n) :: (entriesFwd (path ++ [n]) es ++ entriesFwd path rest)

/-- Erase a walker item to the `(parent_path, name)` pair the claims
talk about. -/
def itemPair (it : RPath × DirentJson × FsJson) : RPath × ByteStr := (it.1, it.2.1.name)

/-! # Theorems -/

/-! ## C7: Library.load_fs -/

/-- C7.  `Library::load_fs` on the all-zero sentinel hash returns the
empty Dir for every behaviour of the object store (hence without any
filesystem access); on any other id it evaluates `parse_fs_json` at
exactly `repo_path/fs/uuid/h[0..2]/h[2..]` of the rendered hash, and
any error of that pipeline (IO, ParseJson) is surfaced unchanged. -/
theorem c7_load_fs_sentinel_and_path (parse : RPath → Except SeafErr FsJson)
    (lib : Library) (id : Sha1) (hne : id ≠ EMPTY_SHA1) :
    Library.load_fs parse lib EMPTY_SHA1 = .ok (.dir EMPTY_DIR_JSON)
    ∧ EMPTY_SHA1 = ⟨[0, 0, 0, 0, 0]⟩
    ∧ EMPTY_DIR_JSON.dirents = []
    ∧ Library.load_fs parse lib id
        = parse (pathJoin (pathJoin (pathJoin (pathJoin lib.location.repo_path fsTyName)
            lib.location.uuid) ((sha1Render id).take 2)) ((sha1Render id).drop 2))
    ∧ (∀ e, parse (full_obj_path lib.location fsTyName id) = .error e →
        Library.load_fs parse lib id = .error e) := by
  refine ⟨by simp [Library.load_fs], rfl, rfl, ?_, ?_⟩
  · simp [Library.load_fs, hne, full_obj_path, obj_type_path]
  · intro e he
    simpa [Library.load_fs, hne] using he

/-- Closed instance of C7 at a concrete non-sentinel id and a concrete
failing object store. -/
theorem c7_witness :
    Library.load_fs (fun _ => .error .ioErr)
        ⟨⟨[], []⟩, ⟨EMPTY_SHA1, EMPTY_SHA1, [], [], [], [], 0, none, none, [], [], none, 0, 0⟩⟩
        EMPTY_SHA1 = .ok (.dir EMPTY_DIR_JSON)
    ∧ Library.load_fs (fun _ => .error .ioErr)
        ⟨⟨[], []⟩, ⟨EMPTY_SHA1, EMPTY_SHA1, [], [], [], [], 0, none, none, [], [], none, 0, 0⟩⟩
        ⟨[0, 0, 0, 0, 1]⟩ = .error .ioErr := by
  have h := c7_load_fs_sentinel_and_path (fun _ => .error .ioErr)
    ⟨⟨[], []⟩, ⟨EMPTY_SHA1, EMPTY_SHA1, [], [], [], [], 0, none, none, [], [], none, 0, 0⟩⟩
    ⟨[0, 0, 0, 0, 1]⟩ (by decide)
  exact ⟨h.1, h.2.2.2.2 .ioErr rfl⟩

/-! ## C3: head-commit selection -/

/-- Running the selection loop with a non-empty accumulator over
error-free iterator items always succeeds and yields the first commit
attaining the maximal `ctime` (strict `>` keeps the earlier one on
ties). -/
theorem findHeadLoop_spec (cl : List CommitJson) : ∀ acc : CommitJson,
    ∃ r, findHeadLoop (some acc) (cl.map Except.ok) = .ok r
      ∧ (∀ c ∈ cl, c.ctime ≤ r.ctime)
      ∧ acc.ctime ≤ r.ctime
      ∧ (r = acc ∨ ∃ i, cl.get? i = some r ∧ acc.ctime < r.ctime
          ∧ ∀ j, j < i → ∀ c, cl.get? j = some c → c.ctime < r.ctime) := by
  induction cl with
  | nil =>
    intro acc
    exact ⟨acc, rfl, by simp, le_refl _, Or.inl rfl⟩
  | cons c rest ih =>
    intro acc
    by_cases h : c.ctime > acc.ctime
    · obtain ⟨r, hr, hall, hacc, hidx⟩ := ih c
      refine ⟨r, ?_, ?_, by omega, ?_⟩
      · simpa [findHeadLoop, h] using hr
      · intro x hx
        rcases List.mem_cons.mp hx with rfl | hx
        · exact hacc
        · exact hall x hx
      · rcases hidx with rfl | ⟨i, hi, hlt, hfirst⟩
        · exact Or.inr ⟨0, by simp, h, by omega⟩
        · refine Or.inr ⟨i + 1, by simpa using hi, by omega, ?_⟩
          intro j hj x hx
          match j, hx with
          | 0, hx =>
            obtain rfl : c = x := by simpa using hx
            omega
          | j + 1, hx => exact hfirst j (by omega) x (by simpa using hx)
    · obtain ⟨r, hr, hall, hacc, hidx⟩ := ih acc
      refine ⟨r, ?_, ?_, hacc, ?_⟩
      · simpa [findHeadLoop, h] using hr
      · intro x hx
        rcases List.mem_cons.mp hx with rfl | hx
        · omega
        · exact hall x hx
      · rcases hidx with rfl | ⟨i, hi, hlt, hfirst⟩
        · exact Or.inl rfl
        · refine Or.inr ⟨i + 1, by simpa using hi, hlt, ?_⟩
          intro j hj x hx
          match j, hx with
          | 0, hx =>
            obtain rfl : c = x := by simpa using hx
            omega
          | j + 1, hx => exact hfirst j (by omega) x (by simpa using hx)

/-- C3.  Over an error-free enumeration, `Library::open` fails with
`NoHeadCommit` iff zero commits were enumerated; otherwise
`find_head_commit` returns the commit with the numerically largest
`ctime`, ties broken in favour of the first-enumerated one, and `open`
wraps it as the library's head commit. -/
theorem c3_head_commit_selection (repo_path : RPath) (uuid : ByteStr)
    (cl : List CommitJson) :
    (Library.open repo_path uuid (cl.map Except.ok) = .error .noHeadCommit ↔ cl = [])
    ∧ (cl ≠ [] → ∃ hc, find_head_commit (cl.map Except.ok) = .ok hc)
    ∧ (∀ hc, find_head_commit (cl.map Except.ok) = .ok hc →
        Library.open repo_path uuid (cl.map Except.ok) = .ok ⟨⟨repo_path, uuid⟩, hc⟩
        ∧ (∀ c ∈ cl, c.ctime ≤ hc.ctime)
        ∧ ∃ i, cl.get? i = some hc
            ∧ ∀ j, j < i → ∀ c, cl.get? j = some c → c.ctime < hc.ctime) := by
  match cl with
  | [] =>
    refine ⟨by simp [Library.open, find_head_commit, findHeadLoop], by simp, ?_⟩
    intro hc h
    simp [find_head_commit, findHeadLoop] at h
  | c :: rest =>
    obtain ⟨r, hr, hall, hacc, hidx⟩ := findHeadLoop_spec rest c
    have hfind : find_head_commit ((c :: rest).map Except.ok) = .ok r := by
      simpa [find_head_commit, findHeadLoop] using hr
    have hopen : Library.open repo_path uuid ((c :: rest).map Except.ok)
        = .ok ⟨⟨repo_path, uuid⟩, r⟩ := by
      simp only [Library.open]
      rw [hfind]
    refine ⟨?_, fun _ => ⟨r, hfind⟩, ?_⟩
    · rw [hopen]
      simp
    · intro hc h
      rw [hfind] at h
      injection h with h
      subst h
      refine ⟨hopen, ?_, ?_⟩
      · intro x hx
        rcases List.mem_cons.mp hx with rfl | hx
        · exact hacc
        · exact hall x hx
      · rcases hidx with rfl | ⟨i, hi, hlt, hfirst⟩
        · exact ⟨0, by simp, by omega⟩
        · refine ⟨i + 1, by simpa using hi, ?_⟩
          intro j hj x hx
          match j, hx with
          | 0, hx =>
            obtain rfl : c = x := by simpa using hx
            omega
          | j + 1, hx => exact hfirst j (by omega) x (by simpa using hx)

/-- Closed instance of C3 mirroring the spec's example: among commits
with `ctime` 100, 200, 150 the one with `ctime = 200` is selected. -/
theorem c3_witness :
    find_head_commit
        ([⟨EMPTY_SHA1, EMPTY_SHA1, [], [], [], [], 100, none, none, [], [], none, 0, 0⟩,
          ⟨EMPTY_SHA1, EMPTY_SHA1, [], [], [], [], 200, none, none, [], [], none, 0, 0⟩,
          ⟨EMPTY_SHA1, EMPTY_SHA1, [], [], [], [], 150, none, none, [], [], none, 0, 0⟩].map
          Except.ok)
      = .ok ⟨EMPTY_SHA1, EMPTY_SHA1, [], [], [], [], 200, none, none, [], [], none, 0, 0⟩
    ∧ Library.open [] []
        (([] : List CommitJson).map Except.ok) = .error .noHeadCommit := by
  constructor
  · rfl
  · exact (c3_head_commit_selection [] [] []).1.mpr rfl

/-! ## C8: inode table bijectivity and persistence -/

theorem getByRight_none_forall {t : List (Nat × Sha1)} {id : Sha1}
    (h : getByRight t id = none) : ∀ p ∈ t, p.2 ≠ id := by
  intro p hp
  unfold getByRight at h
  rcases hf : t.find? (fun q => decide (q.2 = id)) with _ | q
  · have := List.find?_eq_none.mp hf p hp
    simpa using this
  · rw [hf] at h
    simp at h

/-- When neither key collides, `BiMap::insert` removes nothing and just
appends the new pair. -/
theorem bimapInsert_fresh {t : List (Nat × Sha1)} {ino : Nat} {id : Sha1}
    (h1 : ∀ p ∈ t, p.1 ≠ ino) (h2 : ∀ p ∈ t, p.2 ≠ id) :
    bimapInsert t ino id = t ++ [(ino, id)] := by
  unfold bimapInsert
  congr 1
  apply List.filter_eq_self.mpr
  intro p hp
  simp [h1 p hp, h2 p hp]

/-- Invariant of every reachable inode state: the root mapping is
present, all inode numbers are below the counter, and the table is
injective in both coordinates. -/
theorem reachable_inv {root_id : Sha1} {s : InoState} (h : Reachable root_id s) :
    (FUSE_ROOT_ID, root_id) ∈ s.ino_table
    ∧ (∀ p ∈ s.ino_table, p.1 < s.ino_counter)
    ∧ (∀ p ∈ s.ino_table, ∀ q ∈ s.ino_table, p.1 = q.1 → p = q)
    ∧ (∀ p ∈ s.ino_table, ∀ q ∈ s.ino_table, p.2 = q.2 → p = q) := by
  induction h with
  | init =>
    refine ⟨by simp [inoInit], ?_, ?_, ?_⟩ <;>
      simp [inoInit, FUSE_ROOT_ID]
  | step s id hs ih =>
    obtain ⟨hroot, hbound, hinjl, hinjr⟩ := ih
    unfold add_ino
    rcases hri : getByRight s.ino_table id with _ | ino
    · have hfresh1 : ∀ p ∈ s.ino_table, p.1 ≠ s.ino_counter := by
        intro p hp
        have := hbound p hp
        omega
      have hfresh2 := getByRight_none_forall hri
      simp only [hri]
      rw [bimapInsert_fresh hfresh1 hfresh2]
      refine ⟨List.mem_append_left _ hroot, ?_, ?_, ?_⟩
      · intro p hp
        rcases List.mem_append.mp hp with hp | hp
        · have := hbound p hp
          omega
        · simp at hp
          subst hp
          omega
      · intro p hp q hq hpq
        rcases List.mem_append.mp hp with hp | hp <;>
          rcases List.mem_append.mp hq with hq | hq
        · exact hinjl p hp q hq hpq
        · simp at hq
          subst hq
          have := hbound p hp
          simp at hpq
          omega
        · simp at hp
          subst hp
          have := hbound q hq
          simp at hpq
          omega
        · simp at hp hq
          rw [hp, hq]
      · intro p hp q hq hpq
        rcases List.mem_append.mp hp with hp | hp <;>
          rcases List.mem_append.mp hq with hq | hq
        · exact hinjr p hp q hq hpq
        · simp at hq
          subst hq
          exact absurd hpq (hfresh2 p hp)
        · simp at hp
          subst hp
          exact absurd hpq.symm (hfresh2 q hq)
        · simp at hp hq
          rw [hp, hq]
    · simp only [hri]
      exact ⟨hroot, hbound, hinjl, hinjr⟩

theorem reachFrom_reachable {root_id : Sha1} {s t : InoState}
    (hs : Reachable root_id s) (h : ReachFrom s t) : Reachable root_id t := by
  induction h with
  | refl => exact hs
  | step t id _ ih => exact Reachable.step t id ih

/-- The table only grows along a mount: every mapping present earlier
is present later. -/
theorem reachFrom_mono {root_id : Sha1} {s t : InoState}
    (hs : Reachable root_id s) (h : ReachFrom s t) :
    ∀ p ∈ s.ino_table, p ∈ t.ino_table := by
  induction h with
  | refl => intro p hp; exact hp
  | step t id ht ih =>
    intro p hp
    have hreach : Reachable root_id t := reachFrom_reachable hs ht
    obtain ⟨_, hbound, _, _⟩ := reachable_inv hreach
    unfold add_ino
    rcases hri : getByRight t.ino_table id with _ | ino
    · have hfresh1 : ∀ q ∈ t.ino_table, q.1 ≠ t.ino_counter := by
        intro q hq
        have := hbound q hq
        omega
      simp only [hri]
      rw [bimapInsert_fresh hfresh1 (getByRight_none_forall hri)]
      exact List.mem_append_left _ (ih p hp)
    · simpa [hri] using ih p hp

/-- Allocating for an already-mapped hash returns the existing inode
and leaves the state unchanged. -/
theorem add_ino_mapped {root_id : Sha1} {s : InoState} (hs : Reachable root_id s)
    {i : Nat} {h : Sha1} (hm : (i, h) ∈ s.ino_table) : add_ino s h = (i, s) := by
  obtain ⟨_, _, _, hinjr⟩ := reachable_inv hs
  rcases hf : s.ino_table.find? (fun q => decide (q.2 = h)) with _ | q
  · have := List.find?_eq_none.mp hf (i, h) hm
    simp at this
  · have hq2 : q.2 = h := by simpa using List.find?_some hf
    have hqmem : q ∈ s.ino_table := List.mem_of_find?_eq_some hf
    have : q = (i, h) := hinjr q hqmem (i, h) hm (by simpa using hq2)
    subst this
    simp [add_ino, getByRight, hf]

/-- A mapped pair is observed by `lookup_id_by_ino`. -/
theorem lookup_mapped {root_id : Sha1} {s : InoState} (hs : Reachable root_id s)
    {i : Nat} {h : Sha1} (hm : (i, h) ∈ s.ino_table) :
    lookup_id_by_ino s i = .ok h := by
  obtain ⟨_, _, hinjl, _⟩ := reachable_inv hs
  rcases hf : s.ino_table.find? (fun q => decide (q.1 = i)) with _ | q
  · have := List.find?_eq_none.mp hf (i, h) hm
    simp at this
  · have hq1 : q.1 = i := by simpa using List.find?_some hf
    have hqmem : q ∈ s.ino_table := List.mem_of_find?_eq_some hf
    have : q = (i, h) := hinjl q hqmem (i, h) hm (by simpa using hq1)
    subst this
    simp [lookup_id_by_ino, getByLeft, hf]

/-- C8.  At every reachable state of a mount the inode table is a
bijection between inode numbers and hashes; it starts with the root
inode mapped to the head commit's `root_id`; and mappings persist: a
pair present at some point is present at every later state, at which
re-allocating its hash returns the same inode without changing the
state and looking the inode up returns the same hash. -/
theorem c8_ino_bijection_persistent (root_id : Sha1) :
    (FUSE_ROOT_ID, root_id) ∈ (inoInit root_id).ino_table
    ∧ (∀ s, Reachable root_id s →
        (∀ p ∈ s.ino_table, ∀ q ∈ s.ino_table, p.1 = q.1 → p = q)
        ∧ (∀ p ∈ s.ino_table, ∀ q ∈ s.ino_table, p.2 = q.2 → p = q))
    ∧ (∀ s s2, Reachable root_id s → ReachFrom s s2 →
        ∀ i h, (i, h) ∈ s.ino_table →
          (i, h) ∈ s2.ino_table ∧ add_ino s2 h = (i, s2)
          ∧ lookup_id_by_ino s2 i = .ok h) := by
  refine ⟨by simp [inoInit], ?_, ?_⟩
  · intro s hs
    obtain ⟨_, _, hinjl, hinjr⟩ := reachable_inv hs
    exact ⟨hinjl, hinjr⟩
  · intro s s2 hs hreach i h hm
    have hm2 : (i, h) ∈ s2.ino_table := reachFrom_mono hs hreach (i, h) hm
    have hs2 : Reachable root_id s2 := reachFrom_reachable hs hreach
    exact ⟨hm2, add_ino_mapped hs2 hm2, lookup_mapped hs2 hm2⟩

/-- Closed instance of C8: after allocating an inode for a fresh hash,
re-allocating the same hash returns the same inode and the table still
holds the root mapping. -/
theorem c8_witness :
    (FUSE_ROOT_ID, (⟨[0, 0, 0, 0, 1]⟩ : Sha1)) ∈ (inoInit ⟨[0, 0, 0, 0, 1]⟩).ino_table
    ∧ (2, (⟨[0, 0, 0, 0, 2]⟩ : Sha1))
        ∈ (add_ino (inoInit ⟨[0, 0, 0, 0, 1]⟩) ⟨[0, 0, 0, 0, 2]⟩).2.ino_table
    ∧ add_ino (add_ino (inoInit ⟨[0, 0, 0, 0, 1]⟩) ⟨[0, 0, 0, 0, 2]⟩).2 ⟨[0, 0, 0, 0, 2]⟩
        = (2, (add_ino (inoInit ⟨[0, 0, 0, 0, 1]⟩) ⟨[0, 0, 0, 0, 2]⟩).2) := by
  have hreach1 : Reachable ⟨[0, 0, 0, 0, 1]⟩ (inoInit ⟨[0, 0, 0, 0, 1]⟩) := .init
  have hreach2 := Reachable.step (inoInit ⟨[0, 0, 0, 0, 1]⟩) ⟨[0, 0, 0, 0, 2]⟩ hreach1
  have h := (c8_ino_bijection_persistent ⟨[0, 0, 0, 0, 1]⟩).2.2
    (add_ino (inoInit ⟨[0, 0, 0, 0, 1]⟩) ⟨[0, 0, 0, 0, 2]⟩).2
    (add_ino (inoInit ⟨[0, 0, 0, 0, 1]⟩) ⟨[0, 0, 0, 0, 2]⟩).2
    hreach2 .refl 2 ⟨[0, 0, 0, 0, 2]⟩ (by decide)
  exact ⟨(c8_ino_bijection_persistent ⟨[0, 0, 0, 0, 1]⟩).1, h.1, h.2.1⟩

/-! ## C1: block-reader correctness -/

theorem bsf_length (sizes : List Nat) : ∀ p, (blockStartsFrom p sizes).length = sizes.length := by
  induction sizes with
  | nil => intro p; rfl
  | cons s rest ih =>
    intro p
    simp [blockStartsFrom, ih]

theorem bsf_countP_zero (sizes : List Nat) : ∀ p k, k < p →
    (blockStartsFrom p sizes).countP (fun a => decide (a ≤ k)) = 0 := by
  induction sizes with
  | nil => intro p k _; rfl
  | cons s rest ih =>
    intro p k hk
    have h1 : ¬ (p ≤ k) := by omega
    simp [blockStartsFrom, List.countP_cons, h1, ih (p + s) k (by omega)]

theorem bsf_countP_shift (sizes : List Nat) : ∀ p q k,
    (blockStartsFrom (q + p) sizes).countP (fun a => decide (a ≤ q + k)) =
    (blockStartsFrom p sizes).countP (fun a => decide (a ≤ k)) := by
  induction sizes with
  | nil => intro p q k; rfl
  | cons s rest ih =>
    intro p q k
    have h1 : (decide (q + p ≤ q + k)) = (decide (p ≤ k)) := by
      by_cases h : p ≤ k
      · simp [h]
      · have h2 : ¬ (q + p ≤ q + k) := by omega
        simp [h, h2]
    have h2 : q + p + s = q + (p + s) := by omega
    simp only [blockStartsFrom, List.countP_cons, h1, h2, ih (p + s) q k]

theorem bsf_getD_shift (sizes : List Nat) : ∀ i p q, i < sizes.length →
    (blockStartsFrom (q + p) sizes).getD i 0 = q + (blockStartsFrom p sizes).getD i 0 := by
  induction sizes with
  | nil => intro i p q h; simp at h
  | cons s rest ih =>
    intro i p q h
    match i with
    | 0 => simp [blockStartsFrom]
    | i + 1 =>
      have h2 : q + p + s = q + (p + s) := by omega
      simp only [blockStartsFrom, List.getD_cons_succ, h2]
      exact ih i (p + s) q (by simpa using h)

/-- Evaluation of `find_start_block` when the bisection finds no
block starting at or before the offset. -/
theorem find_start_block_eval_zero (fbr : FileBlockReader) (offset : Nat)
    (h : bisect_right fbr.block_starts offset = 0) :
    find_start_block fbr offset = none := by
  unfold find_start_block
  simp only [h]
  simp

/-- Evaluation of `find_start_block` once the bisection result is
known and positive. -/
theorem find_start_block_eval_succ (fbr : FileBlockReader) (offset m : Nat)
    (h : bisect_right fbr.block_starts offset = m + 1) :
    find_start_block fbr offset
      = if offset - fbr.block_starts.getD m 0 < fbr.block_sizes.getD m 0
        then some (m, offset - fbr.block_starts.getD m 0)
        else none := by
  unfold find_start_block
  simp only [h]
  simp

/-- The bisection over the prefix sums of `len :: sizes'` is one more
than the bisection over the prefix sums of `sizes'` at `k - len` (when
`len ≤ k`; when `k < len` the tail contributes nothing). -/
theorem bisect_right_bsf_cons (len : Nat) (sizes' : List Nat) (k : Nat) :
    bisect_right (blockStartsFrom 0 (len :: sizes')) k
      = (if k < len then 0
         else bisect_right (blockStartsFrom 0 sizes') (k - len)) + 1 := by
  unfold bisect_right
  simp only [blockStartsFrom, List.countP_cons, Nat.zero_add, decide_True,
    Nat.le_refl, decide_eq_true_eq]
  by_cases hk : k < len
  · rw [if_pos hk, bsf_countP_zero sizes' len k hk]
    simp
  · rw [if_neg hk]
    have h0 := bsf_countP_shift sizes' 0 len (k - len)
    have e1 : len + (k - len) = k := by omega
    rw [e1] at h0
    simp only [Nat.add_zero] at h0
    rw [h0]
    simp

/-- Peeling the first block out of `find_start_block` on a reader whose
starts are the prefix sums of `len :: sizes'`. -/
theorem find_start_block_cons (ids ids2 : List Sha1) (t t2 len : Nat)
    (sizes' : List Nat) (k : Nat) :
    find_start_block ⟨ids, len :: sizes', blockStartsFrom 0 (len :: sizes'), t⟩ k
      = if k < len then some (0, k)
        else
          match find_start_block ⟨ids2, sizes', blockStartsFrom 0 sizes', t2⟩ (k - len) with
          | none => none
          | some (i, o) => some (i + 1, o) := by
  by_cases hk : k < len
  · have hb : bisect_right (blockStartsFrom 0 (len :: sizes')) k = 0 + 1 := by
      rw [bisect_right_bsf_cons, if_pos hk]
    rw [find_start_block_eval_succ _ k 0 hb]
    simp only [blockStartsFrom, List.getD_cons_zero]
    rw [if_pos hk, if_pos (by simpa using hk)]
    simp
  · rcases hc : bisect_right (blockStartsFrom 0 sizes') (k - len) with _ | c
    · have hb : bisect_right (blockStartsFrom 0 (len :: sizes')) k = 0 + 1 := by
        rw [bisect_right_bsf_cons, if_neg hk, hc]
      rw [find_start_block_eval_succ _ k 0 hb, find_start_block_eval_zero _ (k - len) hc]
      simp only [blockStartsFrom, List.getD_cons_zero]
      rw [if_neg hk]
      have hno : ¬ (k - 0 < len) := by omega
      simp [hno]
      omega
    · have hclen : c < sizes'.length := by
        have h1 : (blockStartsFrom 0 sizes').countP (fun a => decide (a ≤ k - len))
            ≤ (blockStartsFrom 0 sizes').length :=
          List.countP_le_length (fun a => decide (a ≤ k - len))
        rw [show (blockStartsFrom 0 sizes').countP (fun a => decide (a ≤ k - len))
            = bisect_right (blockStartsFrom 0 sizes') (k - len) from rfl, hc,
          bsf_length sizes' 0] at h1
        omega
      have hb : bisect_right (blockStartsFrom 0 (len :: sizes')) k = (c + 1) + 1 := by
        rw [bisect_right_bsf_cons, if_neg hk, hc]
      rw [find_start_block_eval_succ _ k (c + 1) hb,
        find_start_block_eval_succ _ (k - len) c hc]
      have hgd : (blockStartsFrom 0 (len :: sizes')).getD (c + 1) 0
          = len + (blockStartsFrom 0 sizes').getD c 0 := by
        simp only [blockStartsFrom, List.getD_cons_succ]
        simpa using bsf_getD_shift sizes' c 0 len hclen
      simp only [hgd]
      have hsz : (len :: sizes').getD (c + 1) 0 = sizes'.getD c 0 := by
        simp
      simp only [hsz]
      have hsub : k - (len + (blockStartsFrom 0 sizes').getD c 0)
          = k - len - (blockStartsFrom 0 sizes').getD c 0 := by omega
      rw [hsub, if_neg hk]
      by_cases hcond : k - len - (blockStartsFrom 0 sizes').getD c 0 < sizes'.getD c 0
      · rw [if_pos hcond, if_pos hcond]
      · rw [if_neg hcond, if_neg hcond]

/-- The block loop, started at an offset within the first remaining
block, reads exactly the window `[off, off + L)` of the concatenation
of the remaining blocks. -/
theorem readLoop_flatten (store : Sha1 → List Nat) :
    ∀ (ids : List Sha1) (off L : Nat),
      (∀ id rest, ids = id :: rest → off ≤ (store id).length) →
      readLoop store (ids.zip (ids.map fun i => (store i).length)) off L
        = (((ids.map store).flatten).drop off).take L := by
  intro ids
  induction ids with
  | nil => intro off L _; simp [readLoop]
  | cons id rest ih =>
    intro off L hoff
    have hofflen : off ≤ (store id).length := hoff id rest rfl
    match L with
    | 0 => simp [readLoop]
    | L + 1 =>
      simp only [List.map_cons, List.zip_cons_cons, readLoop]
      rw [show List.zipWith Prod.mk rest (List.map (fun i => (store i).length) rest)
          = rest.zip (List.map (fun i => (store i).length) rest) from rfl]
      rw [ih 0 (L + 1 - min (L + 1) ((store id).length - off)) (by intro id2 r2 h; omega)]
      simp only [List.drop_zero, List.flatten_cons]
      rw [List.drop_append_eq_append_drop,
        Nat.sub_eq_zero_of_le hofflen, List.drop_zero,
        List.take_append_eq_append_take]
      congr 1
      · apply List.take_eq_take.mpr
        simp only [List.length_drop]
        omega
      · congr 1
        simp only [List.length_drop]
        omega

theorem read_at_offset_new_nil (store : Sha1 → List Nat) (fsz fty fver k L : Nat) :
    FileBlockReader.read_at_offset store (FileBlockReader.new store ⟨[], fsz, fty, fver⟩) k L
      = [] := by
  have h0 : bisect_right
      (FileBlockReader.new store ⟨[], fsz, fty, fver⟩).block_starts k = 0 := rfl
  simp [FileBlockReader.read_at_offset, find_start_block_eval_zero _ k h0]

/-- One unfolding step of `read_at_offset` over a reader built by `new`:
an offset inside the first block starts the loop there, otherwise the
read happens in the remaining blocks at the shifted offset. -/
theorem read_at_offset_new_cons (store : Sha1 → List Nat) (id : Sha1) (rest : List Sha1)
    (fsz fty fver k L : Nat) :
    FileBlockReader.read_at_offset store
        (FileBlockReader.new store ⟨id :: rest, fsz, fty, fver⟩) k L
      = if k < (store id).length
        then readLoop store
          ((id :: rest).zip ((id :: rest).map fun i => (store i).length)) k L
        else FileBlockReader.read_at_offset store
          (FileBlockReader.new store ⟨rest, fsz, fty, fver⟩) (k - (store id).length) L := by
  have hfsb := find_start_block_cons (id :: rest) rest
    (((id :: rest).map fun i => (store i).length).sum)
    ((rest.map fun i => (store i).length).sum)
    ((store id).length) (rest.map fun i => (store i).length) k
  simp only [FileBlockReader.read_at_offset, FileBlockReader.new, List.map_cons] at hfsb ⊢
  rw [hfsb]
  by_cases hk : k < (store id).length
  · rw [if_pos hk, if_pos hk]
    simp [List.zip_cons_cons]
  · rw [if_neg hk, if_neg hk]
    rcases hfs : find_start_block
        ⟨rest, rest.map fun i => (store i).length,
          blockStartsFrom 0 (rest.map fun i => (store i).length),
          (rest.map fun i => (store i).length).sum⟩ (k - (store id).length) with _ | io
    · rfl
    · obtain ⟨i, o⟩ := io
      simp [List.zip_cons_cons]

/-- `read_at_offset` on a freshly constructed reader returns exactly
the window `[k, k + L)` of the concatenation of the file's blocks. -/
theorem read_at_offset_new_eq (store : Sha1 → List Nat) (file : FileJson) (k L : Nat) :
    FileBlockReader.read_at_offset store (FileBlockReader.new store file) k L
      = (((file.block_ids.map store).flatten).drop k).take L := by
  obtain ⟨ids, fsz, fty, fver⟩ := file
  induction ids generalizing k with
  | nil => simp [read_at_offset_new_nil]
  | cons id rest ih =>
    rw [read_at_offset_new_cons]
    by_cases hk : k < (store id).length
    · rw [if_pos hk,
        readLoop_flatten store (id :: rest) k L
          (by intro id2 r2 h; injection h with h1 _; subst h1; omega)]
    · rw [if_neg hk, ih (k - (store id).length)]
      simp only [List.map_cons, List.flatten_cons]
      rw [List.drop_append_eq_append_drop,
        List.drop_eq_nil_of_le (by omega : (store id).length ≤ k)]
      simp

/-- C1.  For a `FileReader` over a freshly constructed block reader,
`seek(Start(k))` followed by `read` with a buffer of length `L` returns
exactly the bytes `B[k .. k + min(L, S - k))` of the concatenation `B`
of the file's blocks (each block's length taken from the block object
itself); in particular it returns `min(L, S - k)` bytes, and zero
bytes when `k ≥ S`. -/
theorem c1_seek_start_read (store : Sha1 → List Nat) (file : FileJson) (k L : Nat) :
    (((FileReader.new (FileBlockReader.new store file)).seek_start k).1.read store L).2
        = (((file.block_ids.map store).flatten).drop k).take L
    ∧ ((((FileReader.new (FileBlockReader.new store file)).seek_start k).1.read store L).2).length
        = min L ((file.block_ids.map store).flatten.length - k)
    ∧ ((file.block_ids.map store).flatten.length ≤ k →
        (((FileReader.new (FileBlockReader.new store file)).seek_start k).1.read store L).2
          = []) := by
  have hread : (((FileReader.new (FileBlockReader.new store file)).seek_start k).1.read
      store L).2
      = FileBlockReader.read_at_offset store (FileBlockReader.new store file) k L := rfl
  rw [hread, read_at_offset_new_eq]
  refine ⟨rfl, ?_, ?_⟩
  · simp only [List.length_take, List.length_drop]
  · intro hks
    rw [List.drop_eq_nil_of_le hks]
    simp

/-- Closed instance of C1: a two-block file with contents
`[10, 20, 30]` and `[40, 50]`; reading 2 bytes from offset 2 crosses
the block boundary and returns `[30, 40]`, and reading at offset 9
(past the end) returns no bytes. -/
theorem c1_witness :
    (((FileReader.new (FileBlockReader.new
          (fun id => if id = ⟨[1, 0, 0, 0, 0]⟩ then [10, 20, 30]
            else if id = ⟨[2, 0, 0, 0, 0]⟩ then [40, 50] else [])
          ⟨[⟨[1, 0, 0, 0, 0]⟩, ⟨[2, 0, 0, 0, 0]⟩], 5, 1, 1⟩)).seek_start 2).1.read
        (fun id => if id = ⟨[1, 0, 0, 0, 0]⟩ then [10, 20, 30]
          else if id = ⟨[2, 0, 0, 0, 0]⟩ then [40, 50] else []) 2).2
      = [30, 40]
    ∧ (((FileReader.new (FileBlockReader.new
          (fun id => if id = ⟨[1, 0, 0, 0, 0]⟩ then [10, 20, 30]
            else if id = ⟨[2, 0, 0, 0, 0]⟩ then [40, 50] else [])
          ⟨[⟨[1, 0, 0, 0, 0]⟩, ⟨[2, 0, 0, 0, 0]⟩], 5, 1, 1⟩)).seek_start 9).1.read
        (fun id => if id = ⟨[1, 0, 0, 0, 0]⟩ then [10, 20, 30]
          else if id = ⟨[2, 0, 0, 0, 0]⟩ then [40, 50] else []) 4).2
      = [] := by
  constructor
  · rw [(c1_seek_start_read
      (fun id => if id = ⟨[1, 0, 0, 0, 0]⟩ then [10, 20, 30]
        else if id = ⟨[2, 0, 0, 0, 0]⟩ then [40, 50] else [])
      ⟨[⟨[1, 0, 0, 0, 0]⟩, ⟨[2, 0, 0, 0, 0]⟩], 5, 1, 1⟩ 2 2).1]
    decide
  · exact (c1_seek_start_read
      (fun id => if id = ⟨[1, 0, 0, 0, 0]⟩ then [10, 20, 30]
        else if id = ⟨[2, 0, 0, 0, 0]⟩ then [40, 50] else [])
      ⟨[⟨[1, 0, 0, 0, 0]⟩, ⟨[2, 0, 0, 0, 0]⟩], 5, 1, 1⟩ 9 4).2.2 (by decide)

/-! ## C10: the declared size field is never consulted by the read path -/

/-- C10.  The read path never consults a File's declared `size` field:
`FileBlockReader::new` measures each block object once, so two files
with the same `block_ids` but different declared sizes produce
identical readers' sizes and identical reads; the total number of
readable bytes is the sum of on-disk block lengths (reading from 0 with
a large enough buffer returns the full block concatenation); while
`getattr` reports the declared `size` as the attribute size. -/
theorem c10_declared_size_ignored (store : Sha1 → List Nat) (f f2 : FileJson)
    (ino k L : Nat) (hids : f2.block_ids = f.block_ids) :
    (FileBlockReader.new store f).block_sizes
        = f.block_ids.map (fun id => (store id).length)
    ∧ (FileBlockReader.new store f).size
        = (f.block_ids.map (fun id => (store id).length)).sum
    ∧ (f.block_ids.map store).flatten.length
        = (f.block_ids.map (fun id => (store id).length)).sum
    ∧ FileBlockReader.read_at_offset store (FileBlockReader.new store f) k L
        = FileBlockReader.read_at_offset store (FileBlockReader.new store f2) k L
    ∧ FileBlockReader.read_at_offset store (FileBlockReader.new store f) 0
          ((f.block_ids.map store).flatten.length)
        = (f.block_ids.map store).flatten
    ∧ (attrOf ino (.file f)).size = f.size := by
  refine ⟨rfl, rfl, ?_, ?_, ?_, rfl⟩
  · rw [List.length_flatten, List.map_map]
    rfl
  · rw [read_at_offset_new_eq, read_at_offset_new_eq, hids]
  · rw [read_at_offset_new_eq]
    simp

/-- Closed instance of C10: a file whose declared size (999) disagrees
with its single 3-byte block still reads all 3 block bytes, while the
attribute size reports 999. -/
theorem c10_witness :
    FileBlockReader.read_at_offset
        (fun id => if id = ⟨[1, 0, 0, 0, 0]⟩ then [7, 8, 9] else [])
        (FileBlockReader.new
          (fun id => if id = ⟨[1, 0, 0, 0, 0]⟩ then [7, 8, 9] else [])
          ⟨[⟨[1, 0, 0, 0, 0]⟩], 999, 1, 1⟩) 0 3
      = [7, 8, 9]
    ∧ (attrOf 5 (.file ⟨[⟨[1, 0, 0, 0, 0]⟩], 999, 1, 1⟩)).size = 999
    ∧ FileBlockReader.read_at_offset
        (fun id => if id = ⟨[1, 0, 0, 0, 0]⟩ then [7, 8, 9] else [])
        (FileBlockReader.new
          (fun id => if id = ⟨[1, 0, 0, 0, 0]⟩ then [7, 8, 9] else [])
          ⟨[⟨[1, 0, 0, 0, 0]⟩], 999, 1, 1⟩) 0 3
      = FileBlockReader.read_at_offset
        (fun id => if id = ⟨[1, 0, 0, 0, 0]⟩ then [7, 8, 9] else [])
        (FileBlockReader.new
          (fun id => if id = ⟨[1, 0, 0, 0, 0]⟩ then [7, 8, 9] else [])
          ⟨[⟨[1, 0, 0, 0, 0]⟩], 3, 1, 1⟩) 0 3 := by
  have h := c10_declared_size_ignored
    (fun id => if id = ⟨[1, 0, 0, 0, 0]⟩ then [7, 8, 9] else [])
    ⟨[⟨[1, 0, 0, 0, 0]⟩], 999, 1, 1⟩ ⟨[⟨[1, 0, 0, 0, 0]⟩], 3, 1, 1⟩ 5 0 3 rfl
  refine ⟨?_, h.2.2.2.2.2, h.2.2.2.1⟩
  have h5 := h.2.2.2.2.1
  simpa using h5

/-! ## C9: do_read and negative offsets (corrected) -/

/-- Refutation of C9 as stated: with a valid open file handle over a
one-block file and the negative offset `-1`, `do_read` returns
`Ok` with zero bytes — not the errno `EINVAL`. -/
theorem c9_counterexample :
    do_read (fun _ => [1, 2, 3])
        [(7, ⟨FileReader.new (FileBlockReader.new (fun _ => [1, 2, 3])
          ⟨[⟨[1, 0, 0, 0, 0]⟩], 3, 1, 1⟩)⟩)]
        7 (-1) 4
      = .ok []
    ∧ do_read (fun _ => [1, 2, 3])
        [(7, ⟨FileReader.new (FileBlockReader.new (fun _ => [1, 2, 3])
          ⟨[⟨[1, 0, 0, 0, 0]⟩], 3, 1, 1⟩)⟩)]
        7 (-1) 4
      ≠ .error EINVAL := by
  have h1 : do_read (fun _ => [1, 2, 3])
      [(7, ⟨FileReader.new (FileBlockReader.new (fun _ => [1, 2, 3])
        ⟨[⟨[1, 0, 0, 0, 0]⟩], 3, 1, 1⟩)⟩)]
      7 (-1) 4 = .ok [] := rfl
  refine ⟨h1, ?_⟩
  rw [h1]
  intro h
  exact Except.noConfusion h

/-- C9 as amended.  `do_read` never maps a negative offset to `EINVAL`:
the offset is cast to u64 two's-complement (at least 2^63 for an i64
below 0), which lies past the end of every file whose block-length sum
is below 2^63, so the seek succeeds and the read returns `Ok` with zero
bytes. -/
theorem c9_amended_negative_offset_reads_nothing (store : Sha1 → List Nat)
    (oft : List (Nat × OpenFile)) (fh : Nat) (of : OpenFile) (file : FileJson)
    (offset : Int) (size : Nat)
    (hfh : (oft.find? (fun p => decide (p.1 = fh))).map Prod.snd = some of)
    (hfbr : of.reader.block_reader = FileBlockReader.new store file)
    (hneg : offset < 0)
    (hrange : -9223372036854775808 ≤ offset)
    (hsmall : ((file.block_ids.map store).flatten).length < 9223372036854775808) :
    do_read store oft fh offset size = .ok [] := by
  unfold do_read
  rw [hfh]
  have hcast : 9223372036854775808 ≤ i64_as_u64 offset := by
    unfold i64_as_u64
    omega
  have hread : ((of.reader.seek_start (i64_as_u64 offset)).1.read store size).2 = [] := by
    have h1 : (of.reader.seek_start (i64_as_u64 offset)).1.read store size
        = FileReader.read store ⟨FileBlockReader.new store file, i64_as_u64 offset⟩ size := by
      simp [FileReader.seek_start, FileReader.read, hfbr]
    rw [h1]
    have h2 : (FileReader.read store ⟨FileBlockReader.new store file,
        i64_as_u64 offset⟩ size).2
        = FileBlockReader.read_at_offset store (FileBlockReader.new store file)
          (i64_as_u64 offset) size := rfl
    rw [h2, read_at_offset_new_eq,
      List.drop_eq_nil_of_le (by omega : ((file.block_ids.map store).flatten).length
        ≤ i64_as_u64 offset)]
    simp
  simp only [hread]

/-- Closed instance of the amended C9 at offset `-1`. -/
theorem c9_amended_witness :
    do_read (fun _ => [1, 2, 3])
        [(7, ⟨FileReader.new (FileBlockReader.new (fun _ => [1, 2, 3])
          ⟨[⟨[1, 0, 0, 0, 0]⟩], 3, 1, 1⟩)⟩)]
        7 (-1) 4
      = .ok [] := by
  exact c9_amended_negative_offset_reads_nothing (fun _ => [1, 2, 3])
    [(7, ⟨FileReader.new (FileBlockReader.new (fun _ => [1, 2, 3])
      ⟨[⟨[1, 0, 0, 0, 0]⟩], 3, 1, 1⟩)⟩)]
    7 ⟨FileReader.new (FileBlockReader.new (fun _ => [1, 2, 3])
      ⟨[⟨[1, 0, 0, 0, 0]⟩], 3, 1, 1⟩)⟩
    ⟨[⟨[1, 0, 0, 0, 0]⟩], 3, 1, 1⟩ (-1) 4
    (by decide) rfl (by decide) (by decide) (by decide)

/-! ## C4: Sha1 parse / render -/

theorem hexDigit_facts {b d : Nat} (h : hexDigit? b = some d) :
    d < 16 ∧ b < 128 ∧ b ≠ 43 ∧ hexChr d = toLowerByte b := by
  unfold hexDigit? at h
  by_cases h1 : 48 ≤ b ∧ b ≤ 57
  · rw [if_pos h1] at h
    injection h with h
    subst h
    unfold hexChr toLowerByte
    refine ⟨by omega, by omega, by omega, ?_⟩
    rw [if_pos (by omega), if_neg (by omega)]
    omega
  · rw [if_neg h1] at h
    by_cases h2 : 97 ≤ b ∧ b ≤ 102
    · rw [if_pos h2] at h
      injection h with h
      subst h
      unfold hexChr toLowerByte
      refine ⟨by omega, by omega, by omega, ?_⟩
      rw [if_neg (by omega), if_neg (by omega)]
      omega
    · rw [if_neg h2] at h
      by_cases h3 : 65 ≤ b ∧ b ≤ 70
      · rw [if_pos h3] at h
        injection h with h
        subst h
        unfold hexChr toLowerByte
        refine ⟨by omega, by omega, by omega, ?_⟩
        rw [if_neg (by omega), if_pos (by omega)]
        omega
      · rw [if_neg h3] at h
        exact absurd h (by simp)

theorem parseHexDigits_cons {b d : Nat} (acc : Nat) (l : List Nat)
    (hd : hexDigit? b = some d) (hlt : acc * 16 + d < 4294967296) :
    parseHexDigits acc (b :: l) = parseHexDigits (acc * 16 + d) l := by
  conv_lhs => unfold parseHexDigits
  rw [hd]
  show (if acc * 16 + d < 4294967296 then parseHexDigits (acc * 16 + d) l else none)
    = parseHexDigits (acc * 16 + d) l
  exact if_pos hlt

/-- `u32::from_str_radix(_, 16)` on eight hex-digit bytes succeeds and
the `\x7b:08x\x7d` rendering of the value is the lowercased input. -/
theorem from_str_radix_hex8 {c : List Nat} (hlen : c.length = 8)
    (hhex : ∀ b ∈ c, (hexDigit? b).isSome) :
    ∃ v, from_str_radix_u32_16 c = some v ∧ v < 4294967296
      ∧ toHex8 v = c.map toLowerByte := by
  match c, hlen with
  | [b0, b1, b2, b3, b4, b5, b6, b7], _ =>
    obtain ⟨d0, h0⟩ := Option.isSome_iff_exists.mp (hhex b0 (by simp))
    obtain ⟨d1, h1⟩ := Option.isSome_iff_exists.mp (hhex b1 (by simp))
    obtain ⟨d2, h2⟩ := Option.isSome_iff_exists.mp (hhex b2 (by simp))
    obtain ⟨d3, h3⟩ := Option.isSome_iff_exists.mp (hhex b3 (by simp))
    obtain ⟨d4, h4⟩ := Option.isSome_iff_exists.mp (hhex b4 (by simp))
    obtain ⟨d5, h5⟩ := Option.isSome_iff_exists.mp (hhex b5 (by simp))
    obtain ⟨d6, h6⟩ := Option.isSome_iff_exists.mp (hhex b6 (by simp))
    obtain ⟨d7, h7⟩ := Option.isSome_iff_exists.mp (hhex b7 (by simp))
    obtain ⟨hd0, hb0, hne0, hch0⟩ := hexDigit_facts h0
    obtain ⟨hd1, hb1, hne1, hch1⟩ := hexDigit_facts h1
    obtain ⟨hd2, hb2, hne2, hch2⟩ := hexDigit_facts h2
    obtain ⟨hd3, hb3, hne3, hch3⟩ := hexDigit_facts h3
    obtain ⟨hd4, hb4, hne4, hch4⟩ := hexDigit_facts h4
    obtain ⟨hd5, hb5, hne5, hch5⟩ := hexDigit_facts h5
    obtain ⟨hd6, hb6, hne6, hch6⟩ := hexDigit_facts h6
    obtain ⟨hd7, hb7, hne7, hch7⟩ := hexDigit_facts h7
    have hfsr : from_str_radix_u32_16 [b0, b1, b2, b3, b4, b5, b6, b7]
        = parseHexDigits 0 [b0, b1, b2, b3, b4, b5, b6, b7] := by
      simp only [from_str_radix_u32_16, if_neg hne0]
    have e0 := parseHexDigits_cons 0 [b1, b2, b3, b4, b5, b6, b7] h0 (by omega)
    have e1 := parseHexDigits_cons (0 * 16 + d0) [b2, b3, b4, b5, b6, b7] h1 (by omega)
    have e2 := parseHexDigits_cons ((0 * 16 + d0) * 16 + d1) [b3, b4, b5, b6, b7] h2
      (by omega)
    have e3 := parseHexDigits_cons (((0 * 16 + d0) * 16 + d1) * 16 + d2) [b4, b5, b6, b7] h3
      (by omega)
    have e4 := parseHexDigits_cons ((((0 * 16 + d0) * 16 + d1) * 16 + d2) * 16 + d3)
      [b5, b6, b7] h4 (by omega)
    have e5 := parseHexDigits_cons (((((0 * 16 + d0) * 16 + d1) * 16 + d2) * 16 + d3) * 16
      + d4) [b6, b7] h5 (by omega)
    have e6 := parseHexDigits_cons ((((((0 * 16 + d0) * 16 + d1) * 16 + d2) * 16 + d3) * 16
      + d4) * 16 + d5) [b7] h6 (by omega)
    have e7 := parseHexDigits_cons (((((((0 * 16 + d0) * 16 + d1) * 16 + d2) * 16 + d3) * 16
      + d4) * 16 + d5) * 16 + d6) [] h7 (by omega)
    have hval : from_str_radix_u32_16 [b0, b1, b2, b3, b4, b5, b6, b7]
        = some ((((((((0 * 16 + d0) * 16 + d1) * 16 + d2) * 16 + d3) * 16 + d4) * 16 + d5)
          * 16 + d6) * 16 + d7) := by
      rw [hfsr, e0, e1, e2, e3, e4, e5, e6, e7]
      rfl
    refine ⟨_, hval, by omega, ?_⟩
    have hx0 : (((((((0 * 16 + d0) * 16 + d1) * 16 + d2) * 16 + d3) * 16 + d4) * 16 + d5)
        * 16 + d6) * 16 + d7 = d0 * 268435456 + d1 * 16777216 + d2 * 1048576 + d3 * 65536
        + d4 * 4096 + d5 * 256 + d6 * 16 + d7 := by ring
    rw [hx0]
    unfold toHex8
    have g0 : (d0 * 268435456 + d1 * 16777216 + d2 * 1048576 + d3 * 65536 + d4 * 4096
        + d5 * 256 + d6 * 16 + d7) / 268435456 % 16 = d0 := by omega
    have g1 : (d0 * 268435456 + d1 * 16777216 + d2 * 1048576 + d3 * 65536 + d4 * 4096
        + d5 * 256 + d6 * 16 + d7) / 16777216 % 16 = d1 := by omega
    have g2 : (d0 * 268435456 + d1 * 16777216 + d2 * 1048576 + d3 * 65536 + d4 * 4096
        + d5 * 256 + d6 * 16 + d7) / 1048576 % 16 = d2 := by omega
    have g3 : (d0 * 268435456 + d1 * 16777216 + d2 * 1048576 + d3 * 65536 + d4 * 4096
        + d5 * 256 + d6 * 16 + d7) / 65536 % 16 = d3 := by omega
    have g4 : (d0 * 268435456 + d1 * 16777216 + d2 * 1048576 + d3 * 65536 + d4 * 4096
        + d5 * 256 + d6 * 16 + d7) / 4096 % 16 = d4 := by omega
    have g5 : (d0 * 268435456 + d1 * 16777216 + d2 * 1048576 + d3 * 65536 + d4 * 4096
        + d5 * 256 + d6 * 16 + d7) / 256 % 16 = d5 := by omega
    have g6 : (d0 * 268435456 + d1 * 16777216 + d2 * 1048576 + d3 * 65536 + d4 * 4096
        + d5 * 256 + d6 * 16 + d7) / 16 % 16 = d6 := by omega
    have g7 : (d0 * 268435456 + d1 * 16777216 + d2 * 1048576 + d3 * 65536 + d4 * 4096
        + d5 * 256 + d6 * 16 + d7) % 16 = d7 := by omega
    rw [g0, g1, g2, g3, g4, g5, g6, g7]
    simp only [List.map_cons, List.map_nil]
    rw [hch0, hch1, hch2, hch3, hch4, hch5, hch6, hch7]

/-- A successful `from_str_radix` input is non-empty and starts with an
ASCII byte (`+` or a hex digit). -/
theorem from_str_radix_head_ascii {c : List Nat} {v : Nat}
    (h : from_str_radix_u32_16 c = some v) :
    ∃ b rest, c = b :: rest ∧ b < 128 := by
  match c with
  | [] => exact absurd h (by simp [from_str_radix_u32_16])
  | b :: rest =>
    refine ⟨b, rest, rfl, ?_⟩
    by_cases hb : b = 43
    · omega
    · simp only [from_str_radix_u32_16, if_neg hb] at h
      unfold parseHexDigits at h
      rcases hd : hexDigit? b with _ | d
      · rw [hd] at h
        simp at h
      · exact (hexDigit_facts hd).2.1

theorem boundary_of_byte_lt {s : List Nat} {i : Nat}
    (h : i = s.length ∨ s.getD i 0 < 128) (hle : i ≤ s.length) :
    is_char_boundary s i = true := by
  unfold is_char_boundary
  by_cases h0 : i = 0
  · simp [h0]
  · rw [if_neg h0]
    by_cases hl : i = s.length
    · simp [hl]
    · rw [if_neg hl, if_pos (by omega)]
      rcases h with h | h
      · exact absurd h hl
      · have h1 : decide (128 ≤ s.getD i 0) = false := decide_eq_false (by omega)
        rw [h1]
        simp

/-- The true half of the original C4: a 40-character hex string parses,
and the rendered form of the result is the lowercased input. -/
theorem sha1_parse_40hex {s : List Nat} (hlen : s.length = 40)
    (hhex : ∀ b ∈ s, (hexDigit? b).isSome) :
    ∃ h, Sha1.parse s = some h ∧ sha1Render h = s.map toLowerByte := by
  have hascii : ∀ b ∈ s, b < 128 := by
    intro b hb
    obtain ⟨d, hd⟩ := Option.isSome_iff_exists.mp (hhex b hb)
    exact (hexDigit_facts hd).2.1
  have hbnd : ∀ i, i ≤ s.length → is_char_boundary s i = true := by
    intro i hi
    apply boundary_of_byte_lt _ hi
    by_cases h : i = s.length
    · exact Or.inl h
    · right
      have hilt : i < s.length := by omega
      rw [List.getD_eq_getElem s 0 hilt]
      exact hascii _ (List.getElem_mem hilt)
  have hsg : ∀ a b : Nat, a ≤ b → b ≤ 40 →
      strGetRange s a b = some ((s.drop a).take (b - a)) := by
    intro a b hab hb40
    unfold strGetRange
    rw [if_pos ⟨hab, by omega, hbnd a (by omega), hbnd b (by omega)⟩]
  have hchunk : ∀ a : Nat, a + 8 ≤ 40 →
      ∃ v, from_str_radix_u32_16 ((s.drop a).take 8) = some v ∧ v < 4294967296
        ∧ toHex8 v = ((s.drop a).take 8).map toLowerByte := by
    intro a ha
    apply from_str_radix_hex8
    · simp [hlen]
      omega
    · intro b hb
      exact hhex b (List.mem_of_mem_drop (List.mem_of_mem_take hb))
  obtain ⟨v0, hv0, _, hr0⟩ := hchunk 0 (by omega)
  obtain ⟨v1, hv1, _, hr1⟩ := hchunk 8 (by omega)
  obtain ⟨v2, hv2, _, hr2⟩ := hchunk 16 (by omega)
  obtain ⟨v3, hv3, _, hr3⟩ := hchunk 24 (by omega)
  obtain ⟨v4, hv4, _, hr4⟩ := hchunk 32 (by omega)
  refine ⟨⟨[v4, v3, v2, v1, v0]⟩, ?_, ?_⟩
  · have h0 := hsg 0 8 (by omega) (by omega)
    have h1 := hsg 8 16 (by omega) (by omega)
    have h2 := hsg 16 24 (by omega) (by omega)
    have h3 := hsg 24 32 (by omega) (by omega)
    have h4 := hsg 32 40 (by omega) (by omega)
    simp only [show (8 : Nat) - 0 = 8 from rfl, show (16 : Nat) - 8 = 8 from rfl,
      show (24 : Nat) - 16 = 8 from rfl, show (32 : Nat) - 24 = 8 from rfl,
      show (40 : Nat) - 32 = 8 from rfl] at h0 h1 h2 h3 h4
    have hv0z := hv0
    rw [List.drop_zero] at hv0z
    simp [Sha1.parse, h0, h1, h2, h3, h4, hv0z, hv1, hv2, hv3, hv4]
  · have hstep : ∀ n : Nat, (s.drop n).take 8 ++ s.drop (n + 8) = s.drop n := by
      intro n
      rw [show s.drop (n + 8) = (s.drop n).drop 8 from (List.drop_drop 8 n s).symm]
      exact List.take_append_drop 8 (s.drop n)
    have h32 : (s.drop 32).take 8 = s.drop 32 :=
      List.take_of_length_le (by simp [hlen])
    have h24 : (s.drop 24).take 8 ++ s.drop 32 = s.drop 24 := by
      simpa using hstep 24
    have h16 : (s.drop 16).take 8 ++ s.drop 24 = s.drop 16 := by
      simpa using hstep 16
    have h8 : (s.drop 8).take 8 ++ s.drop 16 = s.drop 8 := by
      simpa using hstep 8
    have h0 : (s.drop 0).take 8 ++ s.drop 8 = s.drop 0 := by
      rw [List.drop_zero]
      have h := hstep 0
      rw [List.drop_zero, show (0 : Nat) + 8 = 8 from rfl] at h
      exact h
    have hdecomp : s = (s.drop 0).take 8 ++ ((s.drop 8).take 8 ++ ((s.drop 16).take 8
        ++ ((s.drop 24).take 8 ++ (s.drop 32).take 8))) := by
      rw [h32, h24, h16, h8, h0, List.drop_zero]
    have hrender : sha1Render ⟨[v4, v3, v2, v1, v0]⟩
        = toHex8 v0 ++ toHex8 v1 ++ toHex8 v2 ++ toHex8 v3 ++ toHex8 v4 := rfl
    rw [hrender, hr0, hr1, hr2, hr3, hr4]
    conv_rhs => rw [hdecomp]
    simp [List.map_append]

theorem strGetRange_some {s : List Nat} {a b : Nat} {c : List Nat}
    (h : strGetRange s a b = some c) :
    a ≤ b ∧ b ≤ s.length ∧ is_char_boundary s a = true ∧ is_char_boundary s b = true
      ∧ c = (s.drop a).take (b - a) := by
  unfold strGetRange at h
  split at h
  · next hcond =>
    injection h with h
    exact ⟨hcond.1, hcond.2.1, hcond.2.2.1, hcond.2.2.2, h.symm⟩
  · exact absurd h (by simp)

theorem take_succ_eq_cons_head {l : List Nat} {n b : Nat} {rest : List Nat}
    (h : l.take (n + 1) = b :: rest) : ∃ tl, l = b :: tl := by
  match l, h with
  | x :: xs, h =>
    simp only [List.take_succ_cons] at h
    injection h with h1 _
    exact ⟨xs, by rw [h1]⟩

/-- Exact characterization of when `Sha1::parse` succeeds: the input
must have at least 40 bytes, byte 40 (when inside the string) must be a
char boundary, and each of the five 8-byte chunks of the first 40 bytes
must be accepted by `u32::from_str_radix(_, 16)`.  Extra bytes beyond 40
are ignored. -/
theorem sha1_parse_isSome_iff (s : List Nat) :
    (Sha1.parse s).isSome = true ↔
      (40 ≤ s.length ∧ is_char_boundary s 40 = true
        ∧ ∀ i, i < 5 → (from_str_radix_u32_16 ((s.drop (8 * i)).take 8)).isSome = true) := by
  constructor
  · intro hp
    obtain ⟨h, hp⟩ := Option.isSome_iff_exists.mp hp
    unfold Sha1.parse at hp
    rcases Option.bind_eq_some.mp hp with ⟨s0, e0, hp⟩
    rcases Option.bind_eq_some.mp hp with ⟨c0, f0, hp⟩
    rcases Option.bind_eq_some.mp hp with ⟨s1, e1, hp⟩
    rcases Option.bind_eq_some.mp hp with ⟨c1, f1, hp⟩
    rcases Option.bind_eq_some.mp hp with ⟨s2, e2, hp⟩
    rcases Option.bind_eq_some.mp hp with ⟨c2, f2, hp⟩
    rcases Option.bind_eq_some.mp hp with ⟨s3, e3, hp⟩
    rcases Option.bind_eq_some.mp hp with ⟨c3, f3, hp⟩
    rcases Option.bind_eq_some.mp hp with ⟨s4, e4, hp⟩
    rcases Option.bind_eq_some.mp hp with ⟨c4, f4, _⟩
    obtain ⟨_, hlen40, _, hbnd40, hs4⟩ := strGetRange_some e4
    obtain ⟨_, _, _, _, hs0⟩ := strGetRange_some e0
    obtain ⟨_, _, _, _, hs1⟩ := strGetRange_some e1
    obtain ⟨_, _, _, _, hs2⟩ := strGetRange_some e2
    obtain ⟨_, _, _, _, hs3⟩ := strGetRange_some e3
    subst hs0 hs1 hs2 hs3 hs4
    refine ⟨hlen40, hbnd40, ?_⟩
    intro i hi
    match i, hi with
    | 0, _ =>
      rw [show (8 * 0 : Nat) = 0 from rfl]
      rw [show ((8 : Nat) - 0) = 8 from rfl, List.drop_zero] at f0
      rw [List.drop_zero]
      simp [f0]
    | 1, _ =>
      rw [show (8 * 1 : Nat) = 8 from rfl]
      rw [show ((16 : Nat) - 8) = 8 from rfl] at f1
      simp [f1]
    | 2, _ =>
      rw [show (8 * 2 : Nat) = 16 from rfl]
      rw [show ((24 : Nat) - 16) = 8 from rfl] at f2
      simp [f2]
    | 3, _ =>
      rw [show (8 * 3 : Nat) = 24 from rfl]
      rw [show ((32 : Nat) - 24) = 8 from rfl] at f3
      simp [f3]
    | 4, _ =>
      rw [show (8 * 4 : Nat) = 32 from rfl]
      rw [show ((40 : Nat) - 32) = 8 from rfl] at f4
      simp [f4]
  · rintro ⟨hlen40, hbnd40, hch⟩
    have h0 := hch 0 (by omega)
    have h1 := hch 1 (by omega)
    have h2 := hch 2 (by omega)
    have h3 := hch 3 (by omega)
    have h4 := hch 4 (by omega)
    rw [show (8 * 0 : Nat) = 0 from rfl] at h0
    rw [show (8 * 1 : Nat) = 8 from rfl] at h1
    rw [show (8 * 2 : Nat) = 16 from rfl] at h2
    rw [show (8 * 3 : Nat) = 24 from rfl] at h3
    rw [show (8 * 4 : Nat) = 32 from rfl] at h4
    obtain ⟨c0, f0⟩ := Option.isSome_iff_exists.mp h0
    obtain ⟨c1, f1⟩ := Option.isSome_iff_exists.mp h1
    obtain ⟨c2, f2⟩ := Option.isSome_iff_exists.mp h2
    obtain ⟨c3, f3⟩ := Option.isSome_iff_exists.mp h3
    obtain ⟨c4, f4⟩ := Option.isSome_iff_exists.mp h4
    -- each accepted chunk starts with an ASCII byte, so its start is a
    -- char boundary
    have hbd : ∀ a : Nat, a + 8 ≤ 40 →
        (∃ v, from_str_radix_u32_16 ((s.drop a).take 8) = some v) →
        is_char_boundary s a = true := by
      intro a ha hv
      obtain ⟨v, hv⟩ := hv
      obtain ⟨b, rest, hbr, hblt⟩ := from_str_radix_head_ascii hv
      have hbr7 : (s.drop a).take (7 + 1) = b :: rest := hbr
      obtain ⟨tl, htl⟩ := take_succ_eq_cons_head hbr7
      have hget : s[a]? = some b := by
        have hd : (s.drop a)[0]? = some b := by rw [htl]; simp
        rw [List.getElem?_drop] at hd
        simpa using hd
      apply boundary_of_byte_lt _ (by omega)
      right
      rw [List.getD_eq_getElem?_getD, hget]
      simpa using hblt
    have hb0 : is_char_boundary s 0 = true := by simp [is_char_boundary]
    have hb8 := hbd 8 (by omega) ⟨c1, f1⟩
    have hb16 := hbd 16 (by omega) ⟨c2, f2⟩
    have hb24 := hbd 24 (by omega) ⟨c3, f3⟩
    have hb32 := hbd 32 (by omega) ⟨c4, f4⟩
    have g0 : strGetRange s 0 8 = some ((s.drop 0).take 8) := by
      unfold strGetRange
      rw [if_pos ⟨by omega, by omega, hb0, hb8⟩]
    have g1 : strGetRange s 8 16 = some ((s.drop 8).take 8) := by
      unfold strGetRange
      rw [if_pos ⟨by omega, by omega, hb8, hb16⟩]
    have g2 : strGetRange s 16 24 = some ((s.drop 16).take 8) := by
      unfold strGetRange
      rw [if_pos ⟨by omega, by omega, hb16, hb24⟩]
    have g3 : strGetRange s 24 32 = some ((s.drop 24).take 8) := by
      unfold strGetRange
      rw [if_pos ⟨by omega, by omega, hb24, hb32⟩]
    have g4 : strGetRange s 32 40 = some ((s.drop 32).take 8) := by
      unfold strGetRange
      rw [if_pos ⟨by omega, by omega, hb32, hbnd40⟩]
    rw [List.drop_zero] at f0
    simp [Sha1.parse, g0, g1, g2, g3, g4, f0, f1, f2, f3, f4]

/-- Refutation of C4 as stated: a 41-character string of `0`s — whose
length is not 40 — is nevertheless parsed successfully, yielding the
all-zero hash, because `Sha1::parse` slices the first 40 bytes and
never checks the total length. -/
theorem c4_counterexample :
    (List.replicate 41 48).length ≠ 40
    ∧ Sha1.parse (List.replicate 41 48) = some ⟨[0, 0, 0, 0, 0]⟩ := by
  constructor
  · decide
  · decide

/-- C4 (amended).  Every string of exactly 40 hex characters parses to
a hash whose rendered form is the lowercased input (the true half of
the claim); and `Sha1::parse` succeeds exactly when the input has at
least 40 bytes, byte 40 is a char boundary, and each 8-byte chunk of
the first 40 bytes is accepted by `u32::from_str_radix(_, 16)` (hex
digits with an optional leading `+`) — so over-long inputs and
`+`-prefixed chunks are accepted, contrary to the original claim. -/
theorem c4_sha1_parse_render (s : List Nat) :
    (s.length = 40 → (∀ b ∈ s, (hexDigit? b).isSome) →
      ∃ h, Sha1.parse s = some h ∧ sha1Render h = s.map toLowerByte)
    ∧ ((Sha1.parse s).isSome = true ↔
        (40 ≤ s.length ∧ is_char_boundary s 40 = true
          ∧ ∀ i, i < 5 →
            (from_str_radix_u32_16 ((s.drop (8 * i)).take 8)).isSome = true)) :=
  ⟨fun h1 h2 => sha1_parse_40hex h1 h2, sha1_parse_isSome_iff s⟩

/-- Closed instance of the amended C4 at the 40-character string of 39
`0`s followed by `a`. -/
theorem c4_witness :
    ∃ h, Sha1.parse (List.replicate 39 48 ++ [97]) = some h
      ∧ sha1Render h = (List.replicate 39 48 ++ [97]).map toLowerByte :=
  (c4_sha1_parse_render (List.replicate 39 48 ++ [97])).1 (by decide) (by decide)

/-! ## C2 / C5 / C6: the filesystem walker -/

theorem runIter_congr {lib : Sha1 → Except SeafErr FsJson} {st1 st2 : FsItState}
    (h : nextResult lib st1 = nextResult lib st2) :
    ∀ fuel, runIter lib fuel st1 = runIter lib fuel st2 := by
  intro fuel
  cases fuel with
  | zero => rfl
  | succ m => simp only [runIter, h]

/-- An empty stack is terminal: every further `next` yields `None`. -/
theorem runIter_empty (lib : Sha1 → Except SeafErr FsJson) (fuel : Nat) (path : RPath) :
    runIter lib fuel (.notRoot [] path) = [] := by
  cases fuel with
  | zero => rfl
  | succ m => simp [runIter, nextResult, nextLoop]

theorem forall₂_of_get {α β : Type} {R : α → β → Prop} :
    ∀ (ds : List α) (es : List β), ds.length = es.length →
      (∀ i (h1 : i < ds.length) (h2 : i < es.length), R (ds.get ⟨i, h1⟩) (es.get ⟨i, h2⟩)) →
      List.Forall₂ R ds es := by
  intro ds
  induction ds with
  | nil =>
    intro es hlen _
    match es, hlen with
    | [], _ => exact List.Forall₂.nil
  | cons d ds ih =>
    intro es hlen hget
    match es, hlen with
    | e :: es, hlen =>
      refine List.Forall₂.cons (hget 0 (by simp) (by simp)) ?_
      apply ih es (by simpa using hlen)
      intro i h1 h2
      exact hget (i + 1) (by simpa using h1) (by simpa using h2)

theorem loadsTree_dir_inv {lib : Sha1 → Except SeafErr FsJson} {id : Sha1}
    {es : List (ByteStr × Tree)} (h : LoadsTree lib id (.dir es)) :
    ∃ d, lib id = .ok (.dir d) ∧ DirentsOk lib d.dirents es := by
  cases h with
  | dir id d es hload hlen hnames hsub =>
    refine ⟨d, hload, ?_⟩
    exact forall₂_of_get d.dirents es hlen (fun i h1 h2 => ⟨hnames i h1 h2, hsub i h1 h2⟩)

theorem direntsOk_nil_right {lib : Sha1 → Except SeafErr FsJson}
    {es : List (ByteStr × Tree)} (h : DirentsOk lib [] es) : es = [] := by
  cases h
  rfl

/-- Splitting a matched frame at its last dirent (the one `Vec::pop`
removes first). -/
theorem direntsOk_concat {lib : Sha1 → Except SeafErr FsJson} {ds : List DirentJson}
    {de : DirentJson} {es : List (ByteStr × Tree)}
    (h : DirentsOk lib (ds ++ [de]) es) :
    ∃ es' n t, es = es' ++ [(n, t)] ∧ DirentsOk lib ds es'
      ∧ de.name = n ∧ LoadsTree lib de.id t := by
  unfold DirentsOk at h
  have hrev := List.forall₂_reverse_iff.mpr h
  rw [List.reverse_append, List.reverse_singleton] at hrev
  simp only [List.singleton_append] at hrev
  rcases List.forall₂_cons_left_iff.mp hrev with ⟨p, es2, hde, htail, heq⟩
  obtain ⟨n, t⟩ := p
  refine ⟨es2.reverse, n, t, ?_, ?_, hde.1, hde.2⟩
  · have hes := congrArg List.reverse heq
    rw [List.reverse_reverse] at hes
    rw [hes]
    simp
  · unfold DirentsOk
    have h2 := List.forall₂_reverse_iff.mpr htail
    rw [List.reverse_reverse] at h2
    exact h2

theorem loadsTree_file_inv {lib : Sha1 → Except SeafErr FsJson} {id : Sha1}
    (h : LoadsTree lib id .file) : ∃ f, lib id = .ok (.file f) := by
  cases h with
  | file id f hl => exact ⟨f, hl⟩

theorem popYields_concat_file (path : RPath) (es : List (ByteStr × Tree)) (n : ByteStr) :
    popYields path (es ++ [(n, Tree.file)]) = (path, n) :: popYields path es := by
  induction es with
  | nil => simp [popYields]
  | cons e rest ih =>
    obtain ⟨m, t⟩ := e
    cases t <;> simp [popYields, ih]

theorem popYields_concat_dir (path : RPath) (es : List (ByteStr × Tree)) (n : ByteStr)
    (esc : List (ByteStr × Tree)) :
    popYields path (es ++ [(n, Tree.dir esc)])
      = (path, n) :: (popYields (path ++ [n]) esc ++ popYields path es) := by
  induction es with
  | nil => simp [popYields]
  | cons e rest ih =>
    obtain ⟨m, t⟩ := e
    cases t <;> simp [popYields, ih]

/-- The pop-order yields of a dirent list are a permutation of the
stored-order entries of the subtree. -/
theorem popYields_perm : ∀ (path : RPath) (es : List (ByteStr × Tree)),
    (popYields path es).Perm (entriesFwd path es) := by
  intro path es
  induction path, es using popYields.induct with
  | case1 path =>
    simp [popYields, entriesFwd]
  | case2 path n rest ih =>
    simp only [popYields, entriesFwd]
    exact (List.perm_append_singleton _ _).trans (ih.cons _)
  | case3 path n esc rest ih1 ih2 =>
    simp only [popYields, entriesFwd]
    refine (List.perm_middle).trans ?_
    refine List.Perm.cons _ ?_
    exact (List.perm_append_comm).trans (List.Perm.append ih2 ih1)

/-- Core characterization of the walker: from a walking state whose
stack frames match subtree lists, draining the iterator (with enough
fuel) yields exactly the pop-order entries owed by the stack, every
item successful. -/
theorem runIter_stack (lib : Sha1 → Except SeafErr FsJson) :
    ∀ (fuel : Nat) (stack : List DirJson) (esl : List (List (ByteStr × Tree)))
      (path : RPath),
      List.Forall₂ (fun (d : DirJson) es => DirentsOk lib d.dirents es) stack esl →
      (stackYields esl path).length < fuel →
      (runIter lib fuel (.notRoot stack path)).map (Except.map itemPair)
        = (stackYields esl path).map Except.ok := by
  intro fuel
  induction fuel using Nat.strong_induction_on with
  | _ fuel ihf =>
    intro stack
    induction stack with
    | nil =>
      intro esl path hmatch hfuel
      have hesl : esl = [] := by cases hmatch; rfl
      subst hesl
      rw [runIter_empty]
      rfl
    | cons frame rest ihs =>
      intro esl path hmatch hfuel
      cases hmatch with
      | cons hfr hrest =>
        rename_i es esl'
        obtain ⟨ds, fty, fv⟩ := frame
        have hfr' : DirentsOk lib ds es := hfr
        rcases List.eq_nil_or_concat ds with rfl | ⟨ds', de, hconc⟩
        · have hes : es = [] := direntsOk_nil_right hfr'
          subst hes
          have hcong : nextResult lib (.notRoot (⟨[], fty, fv⟩ :: rest) path)
              = nextResult lib (.notRoot rest path.dropLast) := by
            simp [nextResult, nextLoop]
          rw [runIter_congr hcong fuel]
          have hsy : stackYields ([] :: esl') path = stackYields esl' path.dropLast := by
            simp [stackYields, popYields]
          rw [hsy] at hfuel ⊢
          exact ihs esl' path.dropLast hrest hfuel
        · rw [List.concat_eq_append] at hconc
          subst hconc
          obtain ⟨es', n, t, hes, hok', hname, hload⟩ := direntsOk_concat hfr'
          subst hes
          cases fuel with
          | zero => omega
          | succ m =>
            cases t with
            | file =>
              obtain ⟨f0, hf0⟩ := loadsTree_file_inv hload
              have hnr : nextResult lib (.notRoot (⟨ds' ++ [de], fty, fv⟩ :: rest) path)
                  = (.notRoot (⟨ds', fty, fv⟩ :: rest) path,
                     .ok (some (path, de, .file f0))) := by
                simp [nextResult, nextLoop, List.getLast?_concat, List.dropLast_concat, hf0]
              have hrun : runIter lib (m + 1) (.notRoot (⟨ds' ++ [de], fty, fv⟩ :: rest) path)
                  = .ok (path, de, .file f0)
                    :: runIter lib m (.notRoot (⟨ds', fty, fv⟩ :: rest) path) := by
                simp only [runIter, hnr]
              rw [hrun]
              have hsy : stackYields ((es' ++ [(n, Tree.file)]) :: esl') path
                  = (path, n) :: stackYields (es' :: esl') path := by
                rw [show stackYields ((es' ++ [(n, Tree.file)]) :: esl') path
                    = popYields path (es' ++ [(n, Tree.file)])
                      ++ stackYields esl' path.dropLast from rfl,
                  popYields_concat_file]
                rfl
              rw [hsy]
              simp only [List.map_cons]
              have hhead : Except.map itemPair
                  ((Except.ok (path, de, FsJson.file f0)) : Except SeafErr (RPath × DirentJson × FsJson))
                  = Except.ok (path, n) := by
                rw [← hname]
                rfl
              rw [hhead,
                ihf m (by omega) (⟨ds', fty, fv⟩ :: rest) (es' :: esl') path
                  (List.Forall₂.cons hok' hrest)
                  (by
                    have hle := congrArg List.length hsy
                    simp only [List.length_cons] at hle
                    omega)]
            | dir esc =>
              obtain ⟨dj, hdj, hdjok⟩ := loadsTree_dir_inv hload
              have hnr : nextResult lib (.notRoot (⟨ds' ++ [de], fty, fv⟩ :: rest) path)
                  = (.notRoot (dj :: ⟨ds', fty, fv⟩ :: rest) (path ++ [de.name]),
                     .ok (some (path, de, .dir dj))) := by
                simp [nextResult, nextLoop, List.getLast?_concat, List.dropLast_concat, hdj]
              have hrun : runIter lib (m + 1) (.notRoot (⟨ds' ++ [de], fty, fv⟩ :: rest) path)
                  = .ok (path, de, .dir dj)
                    :: runIter lib m
                      (.notRoot (dj :: ⟨ds', fty, fv⟩ :: rest) (path ++ [de.name])) := by
                simp only [runIter, hnr]
              rw [hrun]
              have hsy : stackYields ((es' ++ [(n, Tree.dir esc)]) :: esl') path
                  = (path, n) :: stackYields (esc :: es' :: esl') (path ++ [n]) := by
                have h1 : stackYields (esc :: es' :: esl') (path ++ [n])
                    = popYields (path ++ [n]) esc
                      ++ stackYields (es' :: esl') ((path ++ [n]).dropLast) := rfl
                rw [h1, List.dropLast_concat,
                  show stackYields ((es' ++ [(n, Tree.dir esc)]) :: esl') path
                    = popYields path (es' ++ [(n, Tree.dir esc)])
                      ++ stackYields esl' path.dropLast from rfl,
                  popYields_concat_dir,
                  show stackYields (es' :: esl') path
                    = popYields path es' ++ stackYields esl' path.dropLast from rfl]
                simp [List.append_assoc]
              rw [hsy]
              simp only [List.map_cons]
              have hhead : Except.map itemPair
                  ((Except.ok (path, de, FsJson.dir dj)) : Except SeafErr (RPath × DirentJson × FsJson))
                  = Except.ok (path, n) := by
                rw [← hname]
                rfl
              rw [hname, hhead,
                ihf m (by omega) (dj :: ⟨ds', fty, fv⟩ :: rest) (esc :: es' :: esl')
                  (path ++ [n]) (List.Forall₂.cons hdjok (List.Forall₂.cons hok' hrest))
                  (by
                    have hle := congrArg List.length hsy
                    simp only [List.length_cons] at hle
                    omega)]

/-- C2.  For a well-formed repository — the root id loads as a Dir and
every reachable dirent id resolves to a finite tree (`LoadsTree`) —
draining the walker yields every reachable non-root node exactly once:
all items are successful, and the multiset of yielded
`(parent_path, dirent.name)` pairs equals the entries of the tree
rooted at the head commit's root id (a permutation; no particular
order is guaranteed). -/
theorem c2_walker_yields_every_node_once (lib : Sha1 → Except SeafErr FsJson)
    (root_id : Sha1) (es : List (ByteStr × Tree)) (fuel : Nat)
    (hroot : LoadsTree lib root_id (.dir es))
    (hfuel : (entriesFwd [] es).length < fuel) :
    ((runIter lib fuel (.root root_id)).map (Except.map itemPair)).Perm
      ((entriesFwd [] es).map Except.ok) := by
  obtain ⟨d, hload, hok⟩ := loadsTree_dir_inv hroot
  have hcong : nextResult lib (.root root_id) = nextResult lib (.notRoot [d] []) := by
    simp [nextResult, hload]
  rw [runIter_congr hcong fuel]
  have hperm : (popYields [] es).Perm (entriesFwd [] es) := popYields_perm [] es
  have hsy : stackYields [es] [] = popYields [] es := by
    simp [stackYields]
  have hlen : (stackYields [es] []).length < fuel := by
    rw [hsy, hperm.length_eq]
    exact hfuel
  rw [runIter_stack lib fuel [d] [es] [] (List.Forall₂.cons hok List.Forall₂.nil) hlen, hsy]
  exact hperm.map Except.ok

/-- Closed instance of C2 on a two-level repository:
root = \x7b a (file), b/ \x7b c (file) \x7d \x7d. -/
theorem c2_witness :
    ((runIter
        (fun id => if id = ⟨[0, 0, 0, 0, 9]⟩ then
            .ok (.dir ⟨[⟨⟨[0, 0, 0, 0, 1]⟩, 0, 0, [97]⟩, ⟨⟨[0, 0, 0, 0, 2]⟩, 0, 0, [98]⟩], 0, 0⟩)
          else if id = ⟨[0, 0, 0, 0, 2]⟩ then
            .ok (.dir ⟨[⟨⟨[0, 0, 0, 0, 3]⟩, 0, 0, [99]⟩], 0, 0⟩)
          else if id = ⟨[0, 0, 0, 0, 1]⟩ then .ok (.file ⟨[], 0, 1, 1⟩)
          else if id = ⟨[0, 0, 0, 0, 3]⟩ then .ok (.file ⟨[], 0, 1, 1⟩)
          else .error .ioErr)
        10 (.root ⟨[0, 0, 0, 0, 9]⟩)).map (Except.map itemPair)).Perm
      ((entriesFwd [] [([97], .file), ([98], .dir [([99], .file)])]).map Except.ok) := by
  apply c2_walker_yields_every_node_once
  · apply LoadsTree.dir _ ⟨[⟨⟨[0, 0, 0, 0, 1]⟩, 0, 0, [97]⟩,
      ⟨⟨[0, 0, 0, 0, 2]⟩, 0, 0, [98]⟩], 0, 0⟩ _ rfl rfl
    · intro i h1 h2
      match i, h1 with
      | 0, _ => rfl
      | 1, _ => rfl
    · intro i h1 h2
      match i, h1 with
      | 0, _ => exact LoadsTree.file _ ⟨[], 0, 1, 1⟩ rfl
      | 1, _ =>
        apply LoadsTree.dir _ ⟨[⟨⟨[0, 0, 0, 0, 3]⟩, 0, 0, [99]⟩], 0, 0⟩ _ rfl rfl
        · intro j g1 g2
          match j, g1 with
          | 0, _ => rfl
        · intro j g1 g2
          match j, g1 with
          | 0, _ => exact LoadsTree.file _ ⟨[], 0, 1, 1⟩ rfl
  · simp [entriesFwd]

/-- C5.  `prune` in the `Initial` state clears the walker (every later
`next` yields `None`), as does a `prune` or a `next` on an empty
stack; on a non-empty stack `prune` pops exactly the top frame and the
last path component, after which the walk continues with exactly the
entries the remaining (parent) frames still owe — entries of the
pruned directory not yet yielded are never yielded. -/
theorem c5_prune_pops_top_frame (lib : Sha1 → Except SeafErr FsJson) :
    (∀ root_id fuel, runIter lib fuel (pruneIt (.root root_id)) = [])
    ∧ (∀ path fuel, runIter lib fuel (pruneIt (.notRoot [] path)) = []
        ∧ runIter lib fuel (.notRoot [] path) = [])
    ∧ (∀ d stack path, pruneIt (.notRoot (d :: stack) path)
        = .notRoot stack path.dropLast)
    ∧ (∀ (d : DirJson) (stack : List DirJson) (esl : List (List (ByteStr × Tree)))
        (path : RPath) (fuel : Nat),
        List.Forall₂ (fun (fr : DirJson) es => DirentsOk lib fr.dirents es) stack esl →
        (stackYields esl path.dropLast).length < fuel →
        (runIter lib fuel (pruneIt (.notRoot (d :: stack) path))).map (Except.map itemPair)
          = (stackYields esl path.dropLast).map Except.ok) := by
  refine ⟨?_, ?_, ?_, ?_⟩
  · intro root_id fuel
    exact runIter_empty lib fuel []
  · intro path fuel
    exact ⟨runIter_empty lib fuel path.dropLast, runIter_empty lib fuel path⟩
  · intro d stack path
    rfl
  · intro d stack esl path fuel hm hf
    exact runIter_stack lib fuel stack esl path.dropLast hm hf

/-- Closed instance of C5: pruning the top frame of a two-frame stack
resumes with the parent frame's remaining sibling. -/
theorem c5_witness :
    (runIter (fun _ => (.ok (.file ⟨[], 0, 1, 1⟩) : Except SeafErr FsJson)) 4
        (pruneIt (.notRoot
          [⟨[⟨⟨[0, 0, 0, 0, 3]⟩, 0, 0, [99]⟩], 0, 0⟩,
           ⟨[⟨⟨[0, 0, 0, 0, 1]⟩, 0, 0, [97]⟩], 0, 0⟩]
          [[98]]))).map (Except.map itemPair)
      = (stackYields [[([97], Tree.file)]] ([[98]] : RPath).dropLast).map Except.ok
    ∧ runIter (fun _ => (.ok (.file ⟨[], 0, 1, 1⟩) : Except SeafErr FsJson)) 4
        (pruneIt (.root ⟨[0, 0, 0, 0, 9]⟩)) = [] := by
  constructor
  · exact (c5_prune_pops_top_frame _).2.2.2
      ⟨[⟨⟨[0, 0, 0, 0, 3]⟩, 0, 0, [99]⟩], 0, 0⟩
      [⟨[⟨⟨[0, 0, 0, 0, 1]⟩, 0, 0, [97]⟩], 0, 0⟩]
      [[([97], Tree.file)]] [[98]] 4
      (List.Forall₂.cons
        (List.Forall₂.cons ⟨rfl, LoadsTree.file _ ⟨[], 0, 1, 1⟩ rfl⟩ List.Forall₂.nil)
        List.Forall₂.nil)
      (by simp [stackYields, popYields])
  · exact (c5_prune_pops_top_frame _).1 ⟨[0, 0, 0, 0, 9]⟩ 4

/-- Refutation of C6 as stated: with a root directory whose stored
dirents are `[a (loads fine), b (load fails)]`, the first `next` pops
`b` (the last dirent) and returns its load error — but the dirent was
popped before the load, so the second `next` does not re-attempt `b`:
it yields `a`'s item instead of the error again. -/
theorem c6_counterexample :
    (nextResult
        (fun id => if id = ⟨[0, 0, 0, 0, 9]⟩ then
            .ok (.dir ⟨[⟨⟨[0, 0, 0, 0, 1]⟩, 0, 0, [97]⟩, ⟨⟨[0, 0, 0, 0, 2]⟩, 0, 0, [98]⟩], 0, 0⟩)
          else if id = ⟨[0, 0, 0, 0, 1]⟩ then .ok (.file ⟨[], 0, 1, 1⟩)
          else .error .ioErr)
        (.root ⟨[0, 0, 0, 0, 9]⟩)).2 = .error .ioErr
    ∧ (nextResult
        (fun id => if id = ⟨[0, 0, 0, 0, 9]⟩ then
            .ok (.dir ⟨[⟨⟨[0, 0, 0, 0, 1]⟩, 0, 0, [97]⟩, ⟨⟨[0, 0, 0, 0, 2]⟩, 0, 0, [98]⟩], 0, 0⟩)
          else if id = ⟨[0, 0, 0, 0, 1]⟩ then .ok (.file ⟨[], 0, 1, 1⟩)
          else .error .ioErr)
        (nextResult
          (fun id => if id = ⟨[0, 0, 0, 0, 9]⟩ then
              .ok (.dir ⟨[⟨⟨[0, 0, 0, 0, 1]⟩, 0, 0, [97]⟩, ⟨⟨[0, 0, 0, 0, 2]⟩, 0, 0, [98]⟩], 0, 0⟩)
            else if id = ⟨[0, 0, 0, 0, 1]⟩ then .ok (.file ⟨[], 0, 1, 1⟩)
            else .error .ioErr)
          (.root ⟨[0, 0, 0, 0, 9]⟩)).1).2
      = .ok (some ([], ⟨⟨[0, 0, 0, 0, 1]⟩, 0, 0, [97]⟩, .file ⟨[], 0, 1, 1⟩)) := by
  constructor
  · rfl
  · rfl

/-- C6 (amended).  When loading a dirent's fs-node fails, the error is
returned as that iteration item, but the dirent was already popped
from the frame before the load, so the walker's state IS advanced past
the failing dirent: the next call continues with the frame's remaining
dirents rather than re-attempting the failed one. -/
theorem c6_amended_error_skips_dirent (lib : Sha1 → Except SeafErr FsJson)
    (stack : List DirJson) (path : RPath) (ds : List DirentJson) (de : DirentJson)
    (fty fv : Nat) (e : SeafErr) (herr : lib de.id = .error e) :
    nextResult lib (.notRoot (⟨ds ++ [de], fty, fv⟩ :: stack) path)
      = (.notRoot (⟨ds, fty, fv⟩ :: stack) path, .error e) := by
  simp [nextResult, nextLoop, List.getLast?_concat, List.dropLast_concat, herr]

/-- Closed instance of the amended C6. -/
theorem c6_amended_witness :
    nextResult (fun _ => (.error .ioErr : Except SeafErr FsJson))
        (.notRoot [⟨[⟨⟨[0, 0, 0, 0, 1]⟩, 0, 0, [97]⟩, ⟨⟨[0, 0, 0, 0, 2]⟩, 0, 0, [98]⟩], 0, 0⟩]
          [])
      = (.notRoot [⟨[⟨⟨[0, 0, 0, 0, 1]⟩, 0, 0, [97]⟩], 0, 0⟩] [], .error .ioErr) :=
  c6_amended_error_skips_dirent (fun _ => .error .ioErr) [] []
    [⟨⟨[0, 0, 0, 0, 1]⟩, 0, 0, [97]⟩] ⟨⟨[0, 0, 0, 0, 2]⟩, 0, 0, [98]⟩ 0 0 .ioErr rfl

end Seafuse
